import Mathlib

set_option maxRecDepth 4000

/-! Verification of `scripts/fix-circular-deps.py`.

The script reads every file matched by the glob `dist/**/*.js`, applies two
regular-expression substitutions (one per "rule"), writes a file back only if
its content changed, and prints one summary line per rule.

File contents are embedded as `List Char`.  The two regexes,

  CIRCULAR_PATTERN = `import \{ \w+ as __exportAll \} from "\./subagent-registry-[^"]+\.js";\n`
  RESERVED_PATTERN = `import \{ \w+ as __exportAll \} from "\./reply-[^"]+\.js";\n`

share everything except the middle literal (the chunk-family name), so the
matcher below is parametrised by that middle literal.  Both regexes are
backtracking-deterministic: `\w+` is greedy and is followed by a space (not a
word character), so it always denotes the maximal word-character run, and
`[^"]+` is greedy and is followed by `\.js"`, so it always denotes the maximal
quote-free run, which must end in `.js` and be followed by `";` and a newline.
`matchHere` below implements exactly that unique match, and `scanF` implements
the left-to-right non-overlapping scan of Python's `re.sub`.

`\w` is modelled as ASCII `[A-Za-z0-9_]`; the bundler output being patched is
ASCII JavaScript, and every literal in both patterns is ASCII.
-/

namespace FixCircularDeps

/-- ASCII model of Python's `\w` character class. -/
def isWordChar (c : Char) : Bool :=
  c.isAlphanum || c = '_'

/-- Strip an exact literal from the head of a list: the model of matching a
literal segment of the regex.  Returns the remainder on success. -/
def stripLit : List Char → List Char → Option (List Char)
  | [], s => some s
  | _ :: _, [] => none
  | a :: l, b :: s => if b = a then stripLit l s else none

/-- Maximal run of word characters at the head of the list, with the
remainder: the model of greedy `\w+` (the `+` is enforced at the use site). -/
def wordRun : List Char → List Char × List Char
  | [] => ([], [])
  | c :: cs =>
    if isWordChar c then
      let r := wordRun cs
      (c :: r.1, r.2)
    else ([], c :: cs)

/-- Maximal run of non-quote characters at the head of the list, with the
remainder: the model of greedy `[^"]+` (the `+` is enforced at the use site). -/
def quoteRun : List Char → List Char × List Char
  | [] => ([], [])
  | c :: cs =>
    if c = '"' then ([], c :: cs)
    else
      let r := quoteRun cs
      (c :: r.1, r.2)

/-- The quote-free run matched by `[^"]+\.js` must be nonempty after removing
the final literal `.js`, i.e. have length at least 4 and end in `.js`. -/
def endsJS (q : List Char) : Bool :=
  match q.reverse with
  | 's' :: 'j' :: '.' :: _ :: _ => true
  | _ => false

/-- Mismatch test: `litMismatch l s = true` when `l` and `s` provably differ at some index
that both of them cover: matching `l` literally against `s ++ Y` then fails
for every `Y`. -/
def litMismatch : List Char → List Char → Bool
  | [], _ => false
  | _ :: _, [] => false
  | a :: l, b :: s => if a = b then litMismatch l s else true

/-- Check that `litMismatch` holds of every nonempty suffix of the first list against the
fixed second list. -/
def sufMisAll : List Char → List Char → Bool
  | [], _ => true
  | c :: cs, m => litMismatch (c :: cs) m && sufMisAll cs m

/-- Check that `litMismatch m u' = true` for every nonempty suffix `u'` of `u`, for the
fixed first list `m`. -/
def allSufTailMis (m : List Char) : List Char → Bool
  | [] => true
  | c :: cs => litMismatch m (c :: cs) && allSufTailMis m cs

/-- Decidable literal-prefix test (own definition, used to count occurrences
of the inlined helper text). -/
def isPre : List Char → List Char → Bool
  | [], _ => true
  | _ :: _, [] => false
  | a :: p, b :: u => if a = b then isPre p u else false

/-- Number of positions of `s` at which the (nonempty) literal `pat` occurs as
a substring. -/
def countOcc (pat : List Char) : List Char → Nat
  | [] => 0
  | c :: cs => (if isPre pat (c :: cs) then 1 else 0) + countOcc pat cs

/-- The literal head shared by both regexes: `import \{ `. -/
def importLit : List Char :=
  ("import \x7b ").toList

/-- The middle literal of `CIRCULAR_PATTERN` (rule 1), between `\w+` and
`[^"]+`: the part of the regex naming the subagent-registry chunk family. -/
def CIRCULAR_PATTERN : List Char :=
  (" as __exportAll \x7d from \"./subagent-registry-").toList

/-- The middle literal of `RESERVED_PATTERN` (rule 2): the part of the regex
naming the reply chunk family. -/
def RESERVED_PATTERN : List Char :=
  (" as __exportAll \x7d from \"./reply-").toList

/-- The replacement text `INLINE` from the script, verbatim (tabs and the
final newline included).  It contains no backslash, so Python's replacement
escape processing leaves it unchanged. -/
def INLINE : List Char :=
  ("var __defProp = Object.defineProperty;\nvar __exportAll = (all, no_symbols) => \x7b\n\tlet target = \x7b\x7d;\n\tfor (var name in all) \x7b\n\t\t__defProp(target, name, \x7b\n\t\t\tget: all[name],\n\t\t\tenumerable: true\n\t\t\x7d);\n\t\x7d\n\tif (!no_symbols) \x7b\n\t\t__defProp(target, Symbol.toStringTag, \x7b value: \"Module\" \x7d);\n\t\x7d\n\treturn target;\n\x7d;\n").toList

/-- Attempt to match one of the two import regexes at the head of `s`; `mid`
is the regex's middle literal (`CIRCULAR_PATTERN` or `RESERVED_PATTERN`).
Returns the remainder after the match.  As argued in the header, the
backtracking match of the Python regex at a fixed position is unique, and
this function computes it. -/
def matchHere (mid : List Char) (s : List Char) : Option (List Char) :=
  match stripLit importLit s with
  | none => none
  | some s1 =>
    match wordRun s1 with
    | ([], _) => none
    | (_ :: _, s2) =>
      match stripLit mid s2 with
      | none => none
      | some s3 =>
        match quoteRun s3 with
        | (q, s4) =>
          if endsJS q then
            match s4 with
            | '"' :: ';' :: '\n' :: s5 => some s5
            | _ => none
          else none

/-- Fuel-indexed left-to-right non-overlapping scan: the model of
`pattern.sub(INLINE, s)` together with the number of matches replaced.
With fuel `≥ s.length` the fuel never runs out (each step consumes at least
one character); `pySub`/`pyCount` instantiate it that way. -/
def scanF (mid : List Char) : Nat → List Char → List Char × Nat
  | _, [] => ([], 0)
  | 0, s => (s, 0)
  | fuel + 1, c :: cs =>
    match matchHere mid (c :: cs) with
    | some r => (INLINE ++ (scanF mid fuel r).1, (scanF mid fuel r).2 + 1)
    | none => (c :: (scanF mid fuel cs).1, (scanF mid fuel cs).2)

/-- Model of `pattern.sub(INLINE, s)`: global substitution of the rule whose middle
literal is `mid`. -/
def pySub (mid : List Char) (s : List Char) : List Char :=
  (scanF mid s.length s).1

/-- Number of non-overlapping matches the substitution replaces. -/
def pyCount (mid : List Char) (s : List Char) : Nat :=
  (scanF mid s.length s).2

/-- Cleanliness: `cleanB mid s = true` when no position of `s` starts a match of the rule:
the content contains no substring matching the rule's import pattern. -/
def cleanB (mid : List Char) : List Char → Bool
  | [] => true
  | c :: cs => (matchHere mid (c :: cs)).isNone && cleanB mid cs

/-- Effect of one whole run of the script on one file's content: rule 1
(`CIRCULAR_PATTERN`) is applied to every file, then rule 2
(`RESERVED_PATTERN`). -/
def fileRun (c : List Char) : List Char :=
  pySub RESERVED_PATTERN (pySub CIRCULAR_PATTERN c)

/-! ## Basic lemmas about the matcher components -/

theorem stripLit_sound : ∀ (l s t : List Char), stripLit l s = some t → s = l ++ t := by
  intro l
  induction l with
  | nil =>
    intro s t h
    simp only [stripLit, Option.some.injEq] at h
    simp [h]
  | cons a l ih =>
    intro s t h
    cases s with
    | nil => simp [stripLit] at h
    | cons b s' =>
      unfold stripLit at h
      split at h
      · next hba => simp [hba, ih s' t h]
      · exact absurd h (by simp)

theorem stripLit_of_append : ∀ (l v : List Char), stripLit l (l ++ v) = some v := by
  intro l
  induction l with
  | nil => intro v; rfl
  | cons a l ih => intro v; simp [stripLit, ih v]

theorem litMismatch_strip :
    ∀ (l u : List Char), litMismatch l u = true → ∀ Y, stripLit l (u ++ Y) = none := by
  intro l
  induction l with
  | nil => intro u h; simp [litMismatch] at h
  | cons a l ih =>
    intro u h Y
    cases u with
    | nil => simp [litMismatch] at h
    | cons b u' =>
      unfold litMismatch at h
      show stripLit (a :: l) (b :: (u' ++ Y)) = none
      unfold stripLit
      by_cases hab : a = b
      · rw [if_pos hab] at h
        rw [if_pos hab.symm]
        exact ih u' h Y
      · rw [if_neg (fun hba => hab hba.symm)]

theorem litMismatch_ne_append :
    ∀ (l u : List Char), litMismatch l u = true → ∀ t Y, l ++ t ≠ u ++ Y := by
  intro l
  induction l with
  | nil => intro u h; simp [litMismatch] at h
  | cons a l ih =>
    intro u h t Y heq
    cases u with
    | nil => simp [litMismatch] at h
    | cons b u' =>
      unfold litMismatch at h
      simp only [List.cons_append, List.cons.injEq] at heq
      by_cases hab : a = b
      · rw [if_pos hab] at h
        exact ih u' h t Y heq.2
      · exact hab heq.1

theorem sufMisAll_spec :
    ∀ (l m : List Char), sufMisAll l m = true →
      ∀ k, k < l.length → litMismatch (l.drop k) m = true := by
  intro l
  induction l with
  | nil => intro m _ k hk; simp at hk
  | cons c cs ih =>
    intro m h k hk
    rw [sufMisAll, Bool.and_eq_true] at h
    cases k with
    | zero => exact h.1
    | succ k' => exact ih m h.2 k' (by simpa using hk)

theorem allSufTailMis_spec :
    ∀ (m u : List Char), allSufTailMis m u = true →
      ∀ k, k < u.length → litMismatch m (u.drop k) = true := by
  intro m u
  induction u with
  | nil => intro _ k hk; simp at hk
  | cons c cs ih =>
    intro h k hk
    rw [allSufTailMis, Bool.and_eq_true] at h
    cases k with
    | zero => exact h.1
    | succ k' => exact ih h.2 k' (by simpa using hk)

theorem wordRun_append : ∀ x : List Char, (wordRun x).1 ++ (wordRun x).2 = x := by
  intro x
  induction x with
  | nil => rfl
  | cons c cs ih =>
    by_cases h : isWordChar c
    · simp [wordRun, h, ih]
    · simp [wordRun, h]

theorem wordRun_word : ∀ x : List Char, ∀ c ∈ (wordRun x).1, isWordChar c = true := by
  intro x
  induction x with
  | nil => intro c hc; simp [wordRun] at hc
  | cons a cs ih =>
    intro c hc
    by_cases h : isWordChar a
    · simp only [wordRun, h, if_pos] at hc
      rcases List.mem_cons.1 hc with rfl | hc'
      · exact h
      · exact ih c hc'
    · simp [wordRun, h] at hc

theorem wordRun_exact :
    ∀ (w : List Char), (∀ c ∈ w, isWordChar c = true) →
      ∀ (d : Char) (v : List Char), isWordChar d = false →
        wordRun (w ++ d :: v) = (w, d :: v) := by
  intro w
  induction w with
  | nil => intro _ d v hd; simp [wordRun, hd]
  | cons a w' ih =>
    intro hw d v hd
    have ha : isWordChar a = true := hw a (List.mem_cons_self a w')
    have ih' := ih (fun c hc => hw c (List.mem_cons_of_mem a hc)) d v hd
    simp [wordRun, ha, ih']

theorem wordRun_append_of_stop :
    ∀ (a b : List Char), (wordRun a).2 ≠ [] →
      wordRun (a ++ b) = ((wordRun a).1, (wordRun a).2 ++ b) := by
  intro a
  induction a with
  | nil => intro b h; exact absurd rfl h
  | cons c cs ih =>
    intro b h
    by_cases hc : isWordChar c
    · have h' : (wordRun cs).2 ≠ [] := by
        simpa [wordRun, hc] using h
      simp [wordRun, hc, ih b h']
    · simp [wordRun, hc]

theorem quoteRun_append : ∀ x : List Char, (quoteRun x).1 ++ (quoteRun x).2 = x := by
  intro x
  induction x with
  | nil => rfl
  | cons c cs ih =>
    by_cases h : c = '"'
    · simp [quoteRun, h]
    · simp [quoteRun, h, ih]

theorem quoteRun_noquote : ∀ x : List Char, ∀ c ∈ (quoteRun x).1, ¬ c = '"' := by
  intro x
  induction x with
  | nil => intro c hc; simp [quoteRun] at hc
  | cons a cs ih =>
    intro c hc
    by_cases h : a = '"'
    · simp [quoteRun, h] at hc
    · simp only [quoteRun, h, if_neg, if_false] at hc
      rcases List.mem_cons.1 hc with rfl | hc'
      · exact h
      · exact ih c hc'

theorem quoteRun_exact :
    ∀ (u : List Char), (∀ c ∈ u, ¬ c = '"') →
      ∀ (v : List Char), quoteRun (u ++ '"' :: v) = (u, '"' :: v) := by
  intro u
  induction u with
  | nil => intro _ v; simp [quoteRun]
  | cons a u' ih =>
    intro hu v
    have ha : ¬ a = '"' := hu a (List.mem_cons_self a u')
    have ih' := ih (fun c hc => hu c (List.mem_cons_of_mem a hc)) v
    simp [quoteRun, ha, ih']

theorem quoteRun_append_of_stop :
    ∀ (a b : List Char), (quoteRun a).2 ≠ [] →
      quoteRun (a ++ b) = ((quoteRun a).1, (quoteRun a).2 ++ b) := by
  intro a
  induction a with
  | nil => intro b h; exact absurd rfl h
  | cons c cs ih =>
    intro b h
    by_cases hc : c = '"'
    · simp [quoteRun, hc]
    · have h' : (quoteRun cs).2 ≠ [] := by
        simpa [quoteRun, hc] using h
      simp [quoteRun, hc, ih b h']

theorem isPre_of_append : ∀ (p t : List Char), isPre p (p ++ t) = true := by
  intro p
  induction p with
  | nil => intro t; rfl
  | cons a p' ih => intro t; simp [isPre, ih t]

theorem isPre_sound : ∀ (p u : List Char), isPre p u = true → ∃ t, u = p ++ t := by
  intro p
  induction p with
  | nil => intro u _; exact ⟨u, rfl⟩
  | cons a p' ih =>
    intro u h
    cases u with
    | nil => simp [isPre] at h
    | cons b u' =>
      unfold isPre at h
      split at h
      · next hab =>
        obtain ⟨t, ht⟩ := ih u' h
        exact ⟨t, by simp [hab, ht]⟩
      · exact absurd h (by simp)

theorem dropAppLe :
    ∀ (a b : List Char) (n : Nat), n ≤ a.length → (a ++ b).drop n = a.drop n ++ b := by
  intro a
  induction a with
  | nil =>
    intro b n hn
    have : n = 0 := by simpa using hn
    simp [this]
  | cons c cs ih =>
    intro b n hn
    cases n with
    | zero => rfl
    | succ n' => exact ih b n' (by simpa using hn)

theorem dropAppExact :
    ∀ (a b : List Char) (j : Nat), (a ++ b).drop (a.length + j) = b.drop j := by
  intro a
  induction a with
  | nil => intro b j; simp
  | cons c cs ih =>
    intro b j
    have : (c :: cs).length + j = (cs.length + j) + 1 := by
      simp [Nat.succ_add]
    rw [this]
    simp only [List.cons_append, List.drop_succ_cons]
    exact ih b j

/-! ## Soundness and completeness of `matchHere` -/

theorem matchHere_none_of_strip {mid s : List Char}
    (h : stripLit importLit s = none) : matchHere mid s = none := by
  unfold matchHere
  rw [h]

/-- Soundness: a successful match decomposes the input into the regex's
literal and variable segments, with the variable segments satisfying the
character-class constraints. -/
theorem matchA {mid s t : List Char} (h : matchHere mid s = some t) :
    ∃ w q, w ≠ [] ∧ (∀ c ∈ w, isWordChar c = true) ∧ (∀ c ∈ q, ¬ c = '"') ∧
      endsJS q = true ∧
      s = importLit ++ (w ++ (mid ++ (q ++ '"' :: ';' :: '\n' :: t))) := by
  unfold matchHere at h
  cases h1 : stripLit importLit s with
  | none => rw [h1] at h; exact absurd h (by simp)
  | some s1 =>
    rw [h1] at h
    dsimp only at h
    cases h2 : wordRun s1 with
    | mk w s2 =>
      rw [h2] at h
      cases w with
      | nil => dsimp only at h; exact absurd h (by simp)
      | cons a w' =>
        dsimp only at h
        cases h3 : stripLit mid s2 with
        | none => rw [h3] at h; exact absurd h (by simp)
        | some s3 =>
          rw [h3] at h
          dsimp only at h
          cases h4 : quoteRun s3 with
          | mk q s4 =>
            rw [h4] at h
            dsimp only at h
            by_cases hq : endsJS q = true
            · rw [if_pos hq] at h
              refine ⟨a :: w', q, by simp, ?_, ?_, hq, ?_⟩
              · intro c hc
                have := wordRun_word s1
                rw [h2] at this
                exact this c hc
              · intro c hc
                have := quoteRun_noquote s3
                rw [h4] at this
                exact this c hc
              · have e1 : s = importLit ++ s1 := stripLit_sound _ _ _ h1
                have e2 : s1 = (a :: w') ++ s2 := by
                  have := wordRun_append s1
                  rw [h2] at this
                  exact this.symm
                have e3 : s2 = mid ++ s3 := stripLit_sound _ _ _ h3
                have e4 : s3 = q ++ s4 := by
                  have := quoteRun_append s3
                  rw [h4] at this
                  exact this.symm
                rw [e1, e2, e3, e4]
                split at h
                · next s5 =>
                  cases h
                  rfl
                · exact absurd h (by simp)
            · rw [if_neg hq] at h
              exact absurd h (by simp)

/-- Completeness/construction: any input of the decomposed shape matches,
consuming exactly the decomposed segments.  The hypothesis `mid = ' ' :: mtail`
records that both middle literals start with a space, which is what stops the
greedy `\w+` run exactly at the end of `w`. -/
theorem matchB {mid mtail : List Char} (hmid : mid = ' ' :: mtail)
    (w q Z : List Char) (hw : w ≠ []) (hww : ∀ c ∈ w, isWordChar c = true)
    (hq : ∀ c ∈ q, ¬ c = '"') (hjs : endsJS q = true) :
    matchHere mid (importLit ++ (w ++ (mid ++ (q ++ '"' :: ';' :: '\n' :: Z)))) = some Z := by
  unfold matchHere
  rw [stripLit_of_append]
  dsimp only
  have hrun : wordRun (w ++ (mid ++ (q ++ '"' :: ';' :: '\n' :: Z))) =
      (w, mid ++ (q ++ '"' :: ';' :: '\n' :: Z)) := by
    have : mid ++ (q ++ '"' :: ';' :: '\n' :: Z) =
        ' ' :: (mtail ++ (q ++ '"' :: ';' :: '\n' :: Z)) := by
      rw [hmid]; rfl
    rw [this]
    exact wordRun_exact w hww ' ' _ (by decide)
  rw [hrun]
  cases w with
  | nil => exact absurd rfl hw
  | cons a w' =>
    dsimp only
    rw [stripLit_of_append]
    dsimp only
    rw [quoteRun_exact q hq]
    dsimp only
    rw [if_pos hjs]
    rfl

/-- A successful match consumes at least one character. -/
theorem matchHere_lt {mid s r : List Char} (h : matchHere mid s = some r) :
    r.length < s.length := by
  obtain ⟨w, q, _, _, _, _, hs⟩ := matchA h
  rw [hs]
  simp [List.length_append, importLit]
  omega

/-! ## Unfolding lemmas for the fuelled scan -/

theorem scanF_congr :
    ∀ (mid : List Char) (f1 : Nat), ∀ (f2 : Nat) (s : List Char),
      s.length ≤ f1 → s.length ≤ f2 → scanF mid f1 s = scanF mid f2 s := by
  intro mid f1
  induction f1 with
  | zero =>
    intro f2 s h1 _
    have hs : s = [] := by
      cases s with
      | nil => rfl
      | cons c cs => simp at h1
    subst hs
    cases f2 <;> rfl
  | succ f ih =>
    intro f2 s h1 h2
    cases s with
    | nil => cases f2 <;> rfl
    | cons c cs =>
      cases f2 with
      | zero => simp at h2
      | succ f2' =>
        show scanF mid (f + 1) (c :: cs) = scanF mid (f2' + 1) (c :: cs)
        simp only [List.length_cons] at h1 h2
        unfold scanF
        cases hm : matchHere mid (c :: cs) with
        | some r =>
          have hr : r.length < cs.length + 1 := by
            simpa using matchHere_lt hm
          dsimp only
          rw [ih f2' r (by omega) (by omega)]
        | none =>
          dsimp only
          rw [ih f2' cs (by omega) (by omega)]

theorem pySub_nil (mid : List Char) : pySub mid [] = [] := rfl

theorem pyCount_nil (mid : List Char) : pyCount mid [] = 0 := rfl

theorem scanF_top (mid : List Char) (c : Char) (cs : List Char) :
    scanF mid (c :: cs).length (c :: cs) =
      match matchHere mid (c :: cs) with
      | some r => (INLINE ++ (scanF mid r.length r).1, (scanF mid r.length r).2 + 1)
      | none => (c :: (scanF mid cs.length cs).1, (scanF mid cs.length cs).2) := by
  have step : scanF mid (cs.length + 1) (c :: cs) =
      match matchHere mid (c :: cs) with
      | some r => (INLINE ++ (scanF mid cs.length r).1, (scanF mid cs.length r).2 + 1)
      | none => (c :: (scanF mid cs.length cs).1, (scanF mid cs.length cs).2) := rfl
  show scanF mid (cs.length + 1) (c :: cs) = _
  rw [step]
  cases hm : matchHere mid (c :: cs) with
  | some r =>
    have hr : r.length < cs.length + 1 := by
      simpa using matchHere_lt hm
    dsimp only
    rw [scanF_congr mid cs.length r.length r (by omega) (le_refl _)]
  | none => rfl

theorem pySub_match {mid : List Char} {c : Char} {cs r : List Char}
    (h : matchHere mid (c :: cs) = some r) :
    pySub mid (c :: cs) = INLINE ++ pySub mid r := by
  unfold pySub
  rw [scanF_top, h]

theorem pySub_nomatch {mid : List Char} {c : Char} {cs : List Char}
    (h : matchHere mid (c :: cs) = none) :
    pySub mid (c :: cs) = c :: pySub mid cs := by
  unfold pySub
  rw [scanF_top, h]

theorem pyCount_match {mid : List Char} {c : Char} {cs r : List Char}
    (h : matchHere mid (c :: cs) = some r) :
    pyCount mid (c :: cs) = pyCount mid r + 1 := by
  unfold pyCount
  rw [scanF_top, h]

theorem pyCount_nomatch {mid : List Char} {c : Char} {cs : List Char}
    (h : matchHere mid (c :: cs) = none) :
    pyCount mid (c :: cs) = pyCount mid cs := by
  unfold pyCount
  rw [scanF_top, h]

theorem takeAppLe :
    ∀ (a b : List Char) (n : Nat), n ≤ a.length → (a ++ b).take n = a.take n := by
  intro a
  induction a with
  | nil =>
    intro b n hn
    have : n = 0 := by simpa using hn
    simp [this]
  | cons c cs ih =>
    intro b n hn
    cases n with
    | zero => rfl
    | succ n' => simp [ih b n' (by simpa using hn)]

/-! ## Concrete facts about the literals, settled by evaluation -/

/-- No nonempty suffix of `import \{ ` can literally match at the start of
`INLINE ++ Y` (the replacement text starts with `var `). -/
theorem importLit_mis_INLINE : sufMisAll importLit INLINE = true := by decide

/-- No nonempty suffix of rule 1's middle literal can literally match at the
start of `INLINE ++ Y`. -/
theorem circ_mis_INLINE : sufMisAll CIRCULAR_PATTERN INLINE = true := by decide

/-- No nonempty suffix of rule 2's middle literal can literally match at the
start of `INLINE ++ Y`. -/
theorem res_mis_INLINE : sufMisAll RESERVED_PATTERN INLINE = true := by decide

/-- Rule 1's middle literal cannot match where the leading word-run of
`INLINE` stops (`INLINE` continues ` __defProp`, the literal with ` as`). -/
theorem circ_mis_wordRest : litMismatch CIRCULAR_PATTERN ((wordRun INLINE).2) = true := by
  decide

/-- Rule 2's middle literal cannot match where the leading word-run of
`INLINE` stops. -/
theorem res_mis_wordRest : litMismatch RESERVED_PATTERN ((wordRun INLINE).2) = true := by
  decide

/-- Fact: `INLINE` contains a non-word character. -/
theorem wordRest_ne_nil : (wordRun INLINE).2 ≠ [] := by decide

/-- Fact: `INLINE` contains a quote character. -/
theorem quoteRest_ne_nil : (quoteRun INLINE).2 ≠ [] := by decide

/-- After `INLINE`'s first quote the text continues `Module`, not `;` plus a
newline. -/
theorem semi_mis_quoteRest :
    litMismatch ([';', '\n']) ((quoteRun INLINE).2.drop 1) = true := by decide

/-- The closing `";` + newline of the pattern cannot match at the start of
`INLINE` (which starts with `var`). -/
theorem tri0_mis_INLINE : litMismatch (['"', ';', '\n']) INLINE = true := by decide

theorem tri1_mis_INLINE : litMismatch ([';', '\n']) INLINE = true := by decide

theorem tri2_mis_INLINE : litMismatch (['\n']) INLINE = true := by decide

/-- Fact: `import \{ ` does not literally match at any position of `INLINE`:
no match of either rule can start inside the replacement text. -/
theorem importLit_nostart_INLINE : allSufTailMis importLit INLINE = true := by decide

/-- Fact: `INLINE` has no nontrivial border: it never matches itself at a shifted
position, so occurrences of `INLINE` cannot overlap an inserted copy. -/
theorem INLINE_borderFree : allSufTailMis INLINE (INLINE.drop 1) = true := by decide

/-- Both middle literals start with a space (which stops the greedy `\w+`). -/
theorem circ_head : CIRCULAR_PATTERN = ' ' :: CIRCULAR_PATTERN.tail := by decide

theorem res_head : RESERVED_PATTERN = ' ' :: RESERVED_PATTERN.tail := by decide

/-! ## The straddle bound: a match that sees an inserted `INLINE` block lies
entirely before it -/

/-- If the rule matches at the start of `σ ++ INLINE ++ Y`, the whole match is
contained in `σ`: it matches at the start of `σ ++ Z` for every `Z`, consuming
the same `n ≤ σ.length` characters.  This is the heart of idempotence: no
match can overlap a freshly inserted replacement block. -/
theorem matchBound {mid : List Char} (hmid : mid = ' ' :: mid.tail)
    (hsuf : sufMisAll mid INLINE = true)
    (hword : litMismatch mid ((wordRun INLINE).2) = true)
    {σ Y t : List Char}
    (h : matchHere mid (σ ++ (INLINE ++ Y)) = some t) :
    ∃ n, n ≤ σ.length ∧ ∀ Z, matchHere mid (σ ++ Z) = some (σ.drop n ++ Z) := by
  obtain ⟨w, q, hw, hww, hq, hjs, hs⟩ := matchA h
  by_cases hcase :
      importLit.length + (w.length + (mid.length + (q.length + 3))) ≤ σ.length
  · -- the match is contained in σ
    have hπ : importLit ++ (w ++ (mid ++ (q ++ '"' :: ';' :: '\n' :: t))) =
        (importLit ++ (w ++ (mid ++ (q ++ ['"', ';', '\n'])))) ++ t := by
      simp [List.append_assoc]
    have hlen : (importLit ++ (w ++ (mid ++ (q ++ ['"', ';', '\n'])))).length =
        importLit.length + (w.length + (mid.length + (q.length + 3))) := by
      simp [List.length_append]
    have htake := congrArg
      (List.take (importLit ++ (w ++ (mid ++ (q ++ ['"', ';', '\n'])))).length)
      (hs.trans hπ)
    rw [List.take_left] at htake
    rw [takeAppLe _ _ _ (by omega)] at htake
    refine ⟨(importLit ++ (w ++ (mid ++ (q ++ ['"', ';', '\n'])))).length,
      by omega, ?_⟩
    intro Z
    have hσ : σ ++ Z =
        (importLit ++ (w ++ (mid ++ (q ++ ['"', ';', '\n'])))) ++
          (σ.drop (importLit ++ (w ++ (mid ++ (q ++ ['"', ';', '\n'])))).length ++ Z) := by
      conv_lhs =>
        rw [← List.take_append_drop
          (importLit ++ (w ++ (mid ++ (q ++ ['"', ';', '\n'])))).length σ]
      rw [htake, List.append_assoc]
    rw [hσ]
    have hB := matchB hmid w q
      (σ.drop (importLit ++ (w ++ (mid ++ (q ++ ['"', ';', '\n'])))).length ++ Z)
      hw hww hq hjs
    have harg :
        (importLit ++ (w ++ (mid ++ (q ++ ['"', ';', '\n'])))) ++
            (σ.drop (importLit ++ (w ++ (mid ++ (q ++ ['"', ';', '\n'])))).length ++ Z) =
          importLit ++ (w ++ (mid ++ (q ++ '"' :: ';' :: '\n' ::
            (σ.drop (importLit ++ (w ++ (mid ++ (q ++ ['"', ';', '\n'])))).length ++ Z)))) := by
      simp [List.append_assoc]
    rw [harg]
    exact hB
  · -- impossible: the match would have to straddle into INLINE
    exfalso
    push_neg at hcase
    have hdrop := congrArg (List.drop σ.length) hs
    rw [List.drop_left] at hdrop
    rcases Nat.lt_or_ge σ.length importLit.length with h1 | h1
    · -- boundary inside the `import { ` literal
      rw [dropAppLe _ _ _ (Nat.le_of_lt h1)] at hdrop
      exact litMismatch_ne_append _ _
        (sufMisAll_spec _ _ importLit_mis_INLINE σ.length h1) _ _ hdrop.symm
    · rcases Nat.lt_or_ge σ.length (importLit.length + w.length) with h2 | h2
      · -- boundary inside the `\w+` run
        have hd : σ.length = importLit.length + (σ.length - importLit.length) := by omega
        have hk : σ.length - importLit.length < w.length := by omega
        rw [hd, dropAppExact, dropAppLe _ _ _ (Nat.le_of_lt hk)] at hdrop
        have hwr1 : wordRun ((w.drop (σ.length - importLit.length)) ++
            (mid ++ (q ++ '"' :: ';' :: '\n' :: t))) =
            (w.drop (σ.length - importLit.length),
              mid ++ (q ++ '"' :: ';' :: '\n' :: t)) := by
          have hsp : mid ++ (q ++ '"' :: ';' :: '\n' :: t) =
              ' ' :: (mid.tail ++ (q ++ '"' :: ';' :: '\n' :: t)) := by
            conv_lhs => rw [hmid]
            rfl
          rw [hsp]
          exact wordRun_exact _
            (fun c hc => hww c (List.drop_subset _ _ hc)) ' ' _ (by decide)
        have hwr2 : wordRun (INLINE ++ Y) =
            ((wordRun INLINE).1, (wordRun INLINE).2 ++ Y) :=
          wordRun_append_of_stop INLINE Y wordRest_ne_nil
        have := congrArg wordRun hdrop
        rw [hwr1, hwr2] at this
        have htl := congrArg Prod.snd this
        exact litMismatch_ne_append _ _ hword _ _ htl.symm
      · rcases Nat.lt_or_ge σ.length (importLit.length + w.length + mid.length) with h3 | h3
        · -- boundary inside the middle literal
          have hd : σ.length = importLit.length +
              (w.length + (σ.length - importLit.length - w.length)) := by omega
          have hk : σ.length - importLit.length - w.length < mid.length := by omega
          rw [hd, dropAppExact, dropAppExact, dropAppLe _ _ _ (Nat.le_of_lt hk)] at hdrop
          exact litMismatch_ne_append _ _
            (sufMisAll_spec _ _ hsuf _ hk) _ _ hdrop.symm
        · rcases Nat.lt_or_ge σ.length
            (importLit.length + w.length + mid.length + q.length) with h4 | h4
          · -- boundary inside the `[^"]+` run
            have hd : σ.length = importLit.length + (w.length + (mid.length +
                (σ.length - importLit.length - w.length - mid.length))) := by omega
            have hk : σ.length - importLit.length - w.length - mid.length < q.length := by
              omega
            rw [hd, dropAppExact, dropAppExact, dropAppExact,
              dropAppLe _ _ _ (Nat.le_of_lt hk)] at hdrop
            have hqr1 : quoteRun ((q.drop
                (σ.length - importLit.length - w.length - mid.length)) ++
                '"' :: ';' :: '\n' :: t) =
                (q.drop (σ.length - importLit.length - w.length - mid.length),
                  '"' :: ';' :: '\n' :: t) :=
              quoteRun_exact _ (fun c hc => hq c (List.drop_subset _ _ hc)) _
            have hqr2 : quoteRun (INLINE ++ Y) =
                ((quoteRun INLINE).1, (quoteRun INLINE).2 ++ Y) :=
              quoteRun_append_of_stop INLINE Y quoteRest_ne_nil
            have := congrArg quoteRun hdrop
            rw [hqr1, hqr2] at this
            have htl := congrArg Prod.snd this
            cases hqrest : (quoteRun INLINE).2 with
            | nil => exact quoteRest_ne_nil hqrest
            | cons c0 r' =>
              rw [hqrest] at htl
              simp only [List.cons_append, List.cons.injEq] at htl
              have hmis : litMismatch ([';', '\n']) r' = true := by
                have := semi_mis_quoteRest
                rw [hqrest] at this
                simpa using this
              exact litMismatch_ne_append _ _ hmis t Y
                (by simpa using htl.2.symm)
          · -- boundary inside the closing `";` + newline
            have hk : σ.length -
                (importLit.length + w.length + mid.length + q.length) < 3 := by omega
            have hd : σ.length = importLit.length + (w.length + (mid.length + (q.length +
                (σ.length - (importLit.length + w.length + mid.length + q.length))))) := by
              omega
            have htri : '"' :: ';' :: '\n' :: t = ['"', ';', '\n'] ++ t := rfl
            rw [hd, dropAppExact, dropAppExact, dropAppExact, htri, dropAppExact] at hdrop
            have hsplit :
                σ.length - (importLit.length + w.length + mid.length + q.length) = 0 ∨
                σ.length - (importLit.length + w.length + mid.length + q.length) = 1 ∨
                σ.length - (importLit.length + w.length + mid.length + q.length) = 2 := by
              omega
            rcases hsplit with h0 | h0 | h0 <;> rw [h0] at hdrop
            · exact litMismatch_ne_append _ _ tri0_mis_INLINE _ _ hdrop.symm
            · exact litMismatch_ne_append _ _ tri1_mis_INLINE _ _ hdrop.symm
            · exact litMismatch_ne_append _ _ tri2_mis_INLINE _ _ hdrop.symm

/-! ## Matches never appear at positions where the original scan found none -/

/-- If the rule `mid` does not match at a position of the original text, it
still does not match there after any rule `mid2` has substituted the suffix:
substitution only replaces text further right by `INLINE`, and by
`matchBound` a match cannot reach into an inserted `INLINE` block. -/
theorem matchTransfer {mid : List Char} (hmid : mid = ' ' :: mid.tail)
    (hsuf : sufMisAll mid INLINE = true)
    (hword : litMismatch mid ((wordRun INLINE).2) = true) (mid2 : List Char) :
    ∀ (fuel : Nat) (s σ : List Char), s.length ≤ fuel →
      matchHere mid (σ ++ s) = none → matchHere mid (σ ++ pySub mid2 s) = none := by
  intro fuel
  induction fuel with
  | zero =>
    intro s σ h0 hnone
    have hs : s = [] := by
      cases s with
      | nil => rfl
      | cons c cs => simp at h0
    subst hs
    simpa [pySub_nil] using hnone
  | succ f ih =>
    intro s σ hle hnone
    cases s with
    | nil => simpa [pySub_nil] using hnone
    | cons c cs =>
      simp only [List.length_cons] at hle
      cases hm : matchHere mid2 (c :: cs) with
      | some r =>
        rw [pySub_match hm]
        cases ht : matchHere mid (σ ++ (INLINE ++ pySub mid2 r)) with
        | none => rfl
        | some t =>
          obtain ⟨n, _, hall⟩ := matchBound hmid hsuf hword ht
          have := hall (c :: cs)
          rw [hnone] at this
          exact absurd this (by simp)
      | none =>
        rw [pySub_nomatch hm]
        have hshape : σ ++ c :: pySub mid2 cs = (σ ++ [c]) ++ pySub mid2 cs := by
          simp
        rw [hshape]
        apply ih cs (σ ++ [c]) (by omega)
        have hshape2 : (σ ++ [c]) ++ cs = σ ++ c :: cs := by simp
        rw [hshape2]
        exact hnone

/-! ## Cleanliness: no position matches -/

theorem cleanB_nil (mid : List Char) : cleanB mid [] = true := rfl

theorem cleanB_cons_iff {mid : List Char} {c : Char} {cs : List Char} :
    cleanB mid (c :: cs) = true ↔
      matchHere mid (c :: cs) = none ∧ cleanB mid cs = true := by
  simp [cleanB, Option.isNone_iff_eq_none]

/-- On clean content the substitution is the identity: this is the guard
`new_content != content` never firing. -/
theorem pySub_of_cleanB {mid : List Char} :
    ∀ s : List Char, cleanB mid s = true → pySub mid s = s := by
  intro s
  induction s with
  | nil => intro _; rfl
  | cons c cs ih =>
    intro h
    obtain ⟨h1, h2⟩ := cleanB_cons_iff.mp h
    rw [pySub_nomatch h1, ih h2]

theorem pyCount_of_cleanB {mid : List Char} :
    ∀ s : List Char, cleanB mid s = true → pyCount mid s = 0 := by
  intro s
  induction s with
  | nil => intro _; rfl
  | cons c cs ih =>
    intro h
    obtain ⟨h1, h2⟩ := cleanB_cons_iff.mp h
    rw [pyCount_nomatch h1]
    exact ih h2

theorem cleanB_of_pyCount {mid : List Char} :
    ∀ fuel s, s.length ≤ fuel → pyCount mid s = 0 → cleanB mid s = true := by
  intro fuel
  induction fuel with
  | zero =>
    intro s h0 _
    cases s with
    | nil => rfl
    | cons c cs => simp at h0
  | succ f ih =>
    intro s hle hc
    cases s with
    | nil => rfl
    | cons c cs =>
      simp only [List.length_cons] at hle
      cases hm : matchHere mid (c :: cs) with
      | some r => rw [pyCount_match hm] at hc; exact absurd hc (by simp)
      | none =>
        rw [pyCount_nomatch hm] at hc
        exact cleanB_cons_iff.mpr ⟨hm, ih cs (by omega) hc⟩

theorem cleanB_drop {mid : List Char} :
    ∀ (s : List Char) (n : Nat), cleanB mid s = true → cleanB mid (s.drop n) = true := by
  intro s
  induction s with
  | nil => intro n _; simp [cleanB_nil]
  | cons c cs ih =>
    intro n h
    cases n with
    | zero => exact h
    | succ n' => exact ih n' (cleanB_cons_iff.mp h).2

/-- Prepending a block at whose interior positions the rule never matches
(when followed by the fixed tail `v`) preserves cleanliness. -/
theorem cleanB_prepend {mid : List Char} :
    ∀ (u v : List Char),
      (∀ i, i < u.length → matchHere mid (u.drop i ++ v) = none) →
      cleanB mid v = true → cleanB mid (u ++ v) = true := by
  intro u
  induction u with
  | nil => intro v _ hv; exact hv
  | cons c u' ih =>
    intro v hu hv
    refine cleanB_cons_iff.mpr ⟨?_, ?_⟩
    · have := hu 0 (by simp)
      simpa using this
    · exact ih v (fun i hi => by simpa using hu (i + 1) (by simpa using hi)) hv

/-- No position strictly inside `INLINE` starts a match of either rule,
whatever follows. -/
theorem matchHere_inline_none (mid : List Char) :
    ∀ i, i < INLINE.length → ∀ Y, matchHere mid (INLINE.drop i ++ Y) = none := by
  intro i hi Y
  exact matchHere_none_of_strip
    (litMismatch_strip _ _ (allSufTailMis_spec _ _ importLit_nostart_INLINE i hi) Y)

theorem cleanB_inline_append {mid : List Char} {v : List Char}
    (hv : cleanB mid v = true) : cleanB mid (INLINE ++ v) = true :=
  cleanB_prepend INLINE v (fun i hi => matchHere_inline_none mid i hi v) hv

/-! ## The substitution result is clean, and stays clean under the other rule -/

/-- After `mid`'s own substitution no position of the result matches `mid`:
the substitution removes every match and introduces none. -/
theorem cleanB_pySub_self {mid : List Char} (hmid : mid = ' ' :: mid.tail)
    (hsuf : sufMisAll mid INLINE = true)
    (hword : litMismatch mid ((wordRun INLINE).2) = true) :
    ∀ (fuel : Nat) (s : List Char), s.length ≤ fuel →
      cleanB mid (pySub mid s) = true := by
  intro fuel
  induction fuel with
  | zero =>
    intro s h0
    have hs : s = [] := by
      cases s with
      | nil => rfl
      | cons c cs => simp at h0
    subst hs
    rfl
  | succ f ih =>
    intro s hle
    cases s with
    | nil => rfl
    | cons c cs =>
      simp only [List.length_cons] at hle
      cases hm : matchHere mid (c :: cs) with
      | some r =>
        rw [pySub_match hm]
        have hr : r.length < cs.length + 1 := by simpa using matchHere_lt hm
        exact cleanB_inline_append (ih r (by omega))
      | none =>
        rw [pySub_nomatch hm]
        refine cleanB_cons_iff.mpr ⟨?_, ih cs (by omega)⟩
        have := matchTransfer hmid hsuf hword mid f cs [c] (by omega)
          (by simpa using hm)
        simpa using this

/-- Content clean for `mid` stays clean for `mid` after any rule `mid2`'s
substitution. -/
theorem cleanB_pySub_pres {mid : List Char} (hmid : mid = ' ' :: mid.tail)
    (hsuf : sufMisAll mid INLINE = true)
    (hword : litMismatch mid ((wordRun INLINE).2) = true) (mid2 : List Char) :
    ∀ (fuel : Nat) (s : List Char), s.length ≤ fuel →
      cleanB mid s = true → cleanB mid (pySub mid2 s) = true := by
  intro fuel
  induction fuel with
  | zero =>
    intro s h0 _
    have hs : s = [] := by
      cases s with
      | nil => rfl
      | cons c cs => simp at h0
    subst hs
    rfl
  | succ f ih =>
    intro s hle hcl
    cases s with
    | nil => rfl
    | cons c cs =>
      simp only [List.length_cons] at hle
      cases hm : matchHere mid2 (c :: cs) with
      | some r =>
        rw [pySub_match hm]
        have hr : r.length < cs.length + 1 := by simpa using matchHere_lt hm
        have hrdrop : cleanB mid r = true := by
          obtain ⟨w, q, _, _, _, _, he⟩ := matchA hm
          have : r = (c :: cs).drop
              (importLit ++ (w ++ (mid2 ++ (q ++ ['"', ';', '\n'])))).length := by
            rw [he]
            have : importLit ++ (w ++ (mid2 ++ (q ++ '"' :: ';' :: '\n' :: r))) =
                (importLit ++ (w ++ (mid2 ++ (q ++ ['"', ';', '\n'])))) ++ r := by
              simp [List.append_assoc]
            rw [this, List.drop_left]
          rw [this]
          exact cleanB_drop _ _ hcl
        exact cleanB_inline_append (ih r (by omega) hrdrop)
      | none =>
        rw [pySub_nomatch hm]
        refine cleanB_cons_iff.mpr ⟨?_, ih cs (by omega) (cleanB_cons_iff.mp hcl).2⟩
        have := matchTransfer hmid hsuf hword mid2 f cs [c] (by omega)
          (by simpa using (cleanB_cons_iff.mp hcl).1)
        simpa using this

/-! ## Counting occurrences of the inlined helper text -/

theorem INLINE_ne_nil : INLINE ≠ [] := by decide

/-- Fact: `INLINE` cannot occur at a shifted position over itself. -/
theorem borderMismatch :
    ∀ k, 0 < k → k < INLINE.length → litMismatch INLINE (INLINE.drop k) = true := by
  intro k hk0 hkN
  have h1 : INLINE.drop k = (INLINE.drop 1).drop (k - 1) := by
    rw [List.drop_drop]
    congr 1
    omega
  rw [h1]
  exact allSufTailMis_spec _ _ INLINE_borderFree (k - 1)
    (by simp [List.length_drop]; omega)

theorem countOcc_zero_spec {pat : List Char} (hp : pat ≠ []) :
    ∀ s : List Char, countOcc pat s = 0 → ∀ i, isPre pat (s.drop i) = false := by
  intro s
  induction s with
  | nil =>
    intro _ i
    cases pat with
    | nil => exact absurd rfl hp
    | cons a p => simp [isPre]
  | cons c cs ih =>
    intro h i
    rw [countOcc] at h
    have h1 : isPre pat (c :: cs) = false := by
      by_contra hb
      rw [eq_true_of_ne_false hb] at h
      simp at h
    have h2 : countOcc pat cs = 0 := by
      rw [h1] at h
      simpa using h
    cases i with
    | zero => exact h1
    | succ i' => exact ih h2 i'

theorem countOcc_zero_of_spec {pat : List Char} :
    ∀ s : List Char, (∀ i, isPre pat (s.drop i) = false) → countOcc pat s = 0 := by
  intro s
  induction s with
  | nil => intro _; rfl
  | cons c cs ih =>
    intro h
    rw [countOcc]
    have h0 := h 0
    simp only [List.drop_zero] at h0
    rw [h0]
    simpa using ih (fun i => h (i + 1))

theorem countOcc_drop_zero {pat : List Char} (hp : pat ≠ []) {s : List Char}
    (h : countOcc pat s = 0) (n : Nat) : countOcc pat (s.drop n) = 0 := by
  apply countOcc_zero_of_spec
  intro i
  rw [List.drop_drop]
  exact countOcc_zero_spec hp s h (n + i)

theorem countOcc_append_none {pat : List Char} :
    ∀ (a b : List Char),
      (∀ j, j < a.length → isPre pat (a.drop j ++ b) = false) →
      countOcc pat (a ++ b) = countOcc pat b := by
  intro a
  induction a with
  | nil => intro b _; rfl
  | cons c a' ih =>
    intro b h
    show countOcc pat (c :: (a' ++ b)) = countOcc pat b
    rw [countOcc]
    have h0 := h 0 (by simp)
    simp only [List.drop_zero] at h0
    rw [show ((c :: a') ++ b) = (c :: (a' ++ b)) from rfl] at h0
    rw [h0]
    simpa using ih b (fun j hj => by simpa using h (j + 1) (by simpa using hj))

/-- Prepending one copy of `INLINE` adds exactly one occurrence: the copy
itself, and (since `INLINE` has no border) nothing overlapping it. -/
theorem countOcc_INLINE_prepend :
    ∀ X : List Char, countOcc INLINE (INLINE ++ X) = 1 + countOcc INLINE X := by
  intro X
  obtain ⟨i0, I', hI⟩ : ∃ i0 I', INLINE = i0 :: I' := by
    cases h : INLINE with
    | nil => exact absurd h INLINE_ne_nil
    | cons a b => exact ⟨a, b, rfl⟩
  have harg : INLINE ++ X = i0 :: (I' ++ X) := by rw [hI]; rfl
  rw [harg, countOcc]
  have hpre : isPre INLINE (i0 :: (I' ++ X)) = true := by
    have := isPre_of_append INLINE X
    rw [harg] at this
    exact this
  rw [hpre]
  have hint : ∀ j, j < I'.length → isPre INLINE (I'.drop j ++ X) = false := by
    intro j hj
    by_contra hb
    obtain ⟨tt, htt⟩ := isPre_sound _ _ (eq_true_of_ne_false hb)
    have hdj : I'.drop j = INLINE.drop (j + 1) := by
      rw [hI, List.drop_succ_cons]
    rw [hdj] at htt
    refine litMismatch_ne_append _ _
      (borderMismatch (j + 1) (by omega) ?_) tt X htt.symm
    have : INLINE.length = I'.length + 1 := by rw [hI]; rfl
    omega
  rw [countOcc_append_none I' X hint]
  simp

/-- On a text with no occurrence of `INLINE`, no occurrence appears at a
still-unsubstituted position after substitution of the suffix. -/
theorem occTransfer (mid2 : List Char) :
    ∀ (fuel : Nat) (s σ : List Char), s.length ≤ fuel → 0 < σ.length →
      isPre INLINE (σ ++ s) = false → isPre INLINE (σ ++ pySub mid2 s) = false := by
  intro fuel
  induction fuel with
  | zero =>
    intro s σ h0 _ hpre
    have hs : s = [] := by
      cases s with
      | nil => rfl
      | cons c cs => simp at h0
    subst hs
    simpa [pySub_nil] using hpre
  | succ f ih =>
    intro s σ hle hσ hpre
    cases s with
    | nil => simpa [pySub_nil] using hpre
    | cons c cs =>
      simp only [List.length_cons] at hle
      cases hm : matchHere mid2 (c :: cs) with
      | some r =>
        rw [pySub_match hm]
        by_contra hb
        obtain ⟨tt, htt⟩ := isPre_sound _ _ (eq_true_of_ne_false hb)
        rcases Nat.lt_or_ge σ.length INLINE.length with hlt | hge
        · -- σ shorter than INLINE: an occurrence here forces a border
          have hdrop := congrArg (List.drop σ.length) htt
          rw [List.drop_left] at hdrop
          rw [dropAppLe _ _ _ (Nat.le_of_lt hlt)] at hdrop
          exact litMismatch_ne_append _ _
            (borderMismatch σ.length hσ hlt) _ _ hdrop
        · -- σ at least as long: INLINE is a prefix of σ, contradicting hpre
          have htake := congrArg (List.take INLINE.length) htt
          rw [takeAppLe _ _ _ hge] at htake
          rw [takeAppLe _ _ _ (le_refl _), List.take_length] at htake
          have hσe : σ = INLINE ++ σ.drop INLINE.length := by
            conv_lhs => rw [← List.take_append_drop INLINE.length σ]
            rw [htake]
          have : isPre INLINE (σ ++ (c :: cs)) = true := by
            rw [hσe, List.append_assoc]
            exact isPre_of_append _ _
          rw [this] at hpre
          exact absurd hpre (by simp)
      | none =>
        rw [pySub_nomatch hm]
        have hshape : σ ++ c :: pySub mid2 cs = (σ ++ [c]) ++ pySub mid2 cs := by simp
        rw [hshape]
        apply ih cs (σ ++ [c]) (by omega) (by simp)
        have hshape2 : (σ ++ [c]) ++ cs = σ ++ c :: cs := by simp
        rw [hshape2]
        exact hpre

/-- On content with no pre-existing occurrence of `INLINE`, the substitution
leaves exactly one occurrence of `INLINE` per replaced match. -/
theorem countOcc_pySub (mid2 : List Char) :
    ∀ (fuel : Nat) (s : List Char), s.length ≤ fuel → countOcc INLINE s = 0 →
      countOcc INLINE (pySub mid2 s) = pyCount mid2 s := by
  intro fuel
  induction fuel with
  | zero =>
    intro s h0 _
    have hs : s = [] := by
      cases s with
      | nil => rfl
      | cons c cs => simp at h0
    subst hs
    rfl
  | succ f ih =>
    intro s hle hocc
    cases s with
    | nil => rfl
    | cons c cs =>
      simp only [List.length_cons] at hle
      cases hm : matchHere mid2 (c :: cs) with
      | some r =>
        rw [pySub_match hm, pyCount_match hm]
        have hr : r.length < cs.length + 1 := by simpa using matchHere_lt hm
        have hroc : countOcc INLINE r = 0 := by
          obtain ⟨w, q, _, _, _, _, he⟩ := matchA hm
          have hre : r = (c :: cs).drop
              (importLit ++ (w ++ (mid2 ++ (q ++ ['"', ';', '\n'])))).length := by
            rw [he]
            have : importLit ++ (w ++ (mid2 ++ (q ++ '"' :: ';' :: '\n' :: r))) =
                (importLit ++ (w ++ (mid2 ++ (q ++ ['"', ';', '\n'])))) ++ r := by
              simp [List.append_assoc]
            rw [this, List.drop_left]
          rw [hre]
          exact countOcc_drop_zero INLINE_ne_nil hocc _
        rw [countOcc_INLINE_prepend, ih r (by omega) hroc]
        omega
      | none =>
        rw [pySub_nomatch hm, pyCount_nomatch hm]
        have h0 : isPre INLINE (c :: cs) = false :=
          countOcc_zero_spec INLINE_ne_nil _ hocc 0
        have hocs : countOcc INLINE cs = 0 := by
          rw [countOcc, h0] at hocc
          simpa using hocc
        have h0' : isPre INLINE (c :: pySub mid2 cs) = false := by
          have := occTransfer mid2 f cs [c] (by omega) (by simp) (by simpa using h0)
          simpa using this
        rw [countOcc, h0']
        simpa using ih cs (by omega) hocs

/-! ## The two rules instantiated -/

/-- After rule 1's substitution, no position matches rule 1. -/
theorem circ_clean_after (s : List Char) :
    cleanB CIRCULAR_PATTERN (pySub CIRCULAR_PATTERN s) = true :=
  cleanB_pySub_self circ_head circ_mis_INLINE circ_mis_wordRest s.length s (le_refl _)

/-- After rule 2's substitution, no position matches rule 2. -/
theorem res_clean_after (s : List Char) :
    cleanB RESERVED_PATTERN (pySub RESERVED_PATTERN s) = true :=
  cleanB_pySub_self res_head res_mis_INLINE res_mis_wordRest s.length s (le_refl _)

/-- After a whole run over one file, no position matches rule 1. -/
theorem fileRun_clean_circ (s : List Char) :
    cleanB CIRCULAR_PATTERN (fileRun s) = true :=
  cleanB_pySub_pres circ_head circ_mis_INLINE circ_mis_wordRest RESERVED_PATTERN
    (pySub CIRCULAR_PATTERN s).length (pySub CIRCULAR_PATTERN s) (le_refl _)
    (circ_clean_after s)

/-- After a whole run over one file, no position matches rule 2. -/
theorem fileRun_clean_res (s : List Char) :
    cleanB RESERVED_PATTERN (fileRun s) = true :=
  res_clean_after (pySub CIRCULAR_PATTERN s)

/-- A second whole run leaves every file's content unchanged. -/
theorem fileRun_fileRun (s : List Char) : fileRun (fileRun s) = fileRun s := by
  show pySub RESERVED_PATTERN (pySub CIRCULAR_PATTERN (fileRun s)) = fileRun s
  rw [pySub_of_cleanB _ (fileRun_clean_circ s), pySub_of_cleanB _ (fileRun_clean_res s)]

/-! ## The run model: glob, per-rule passes, I/O events, summary lines

The filesystem is a list of (path, content) pairs; a path is its list of
components.  Each rule's loop in the script re-globs `dist/**/*.js`, reads
every matched file, substitutes, and writes back only on change; the summary
line for a rule is printed right after its loop. -/

/-- One observable action of the run: reading a file, writing a file, or
printing a line to standard output. -/
inductive Ev where
  | read : List String → Ev
  | write : List String → Ev
  | out : String → Ev
deriving DecidableEq

def Ev.isOut : Ev → Bool
  | .out _ => true
  | _ => false

def Ev.isWrite : Ev → Bool
  | .write _ => true
  | _ => false

/-- Whether a file name ends in `.js` (the `*.js` part of the glob). -/
def endsDotJs (name : List Char) : Bool :=
  match name.reverse with
  | 's' :: 'j' :: '.' :: _ => true
  | _ => false

/-- Whether a name starts with a dot: glob's `*` and `**` never match such
names. -/
def hiddenStart : List Char → Bool
  | '.' :: _ => true
  | _ => false

/-- The components after `dist`: every intermediate component (matched by
`**`) is nonempty and not hidden, and the final component (the file name,
matched by `*.js`) additionally ends in `.js`. -/
def globRest : List String → Bool
  | [] => false
  | [name] => !hiddenStart name.toList && endsDotJs name.toList
  | comp :: rest => (comp ≠ ("")) && !hiddenStart comp.toList && globRest rest

/-- Model of membership in `glob.glob('dist/**/*.js', recursive=True)`: the
path starts with the literal component `dist` followed by at least one more
component.  Only regular files are modelled. -/
def globMatchP : List String → Bool
  | d :: rest => (d = ("dist" : String)) && globRest rest
  | [] => false

/-- The event touches only a path accepted by the glob (output lines are
exempt: they are standard output, not filesystem I/O). -/
def Ev.globOnly : Ev → Bool
  | .read p => globMatchP p
  | .write p => globMatchP p
  | .out _ => true

/-- Result of one rule's loop: the updated filesystem, the rule's
modified-file counter, and the I/O events in order. -/
structure PassOut where
  fs : List (List String × List Char)
  cnt : Nat
  evs : List Ev

/-- One rule's loop over the filesystem, in glob order: read each matched
file, substitute, write back only when the content changed (the
`new_content != content` guard), and count the files written.  Files not
matched by the glob are neither read nor written. -/
def rulePass (mid : List Char) : List (List String × List Char) → PassOut
  | [] => ⟨[], 0, []⟩
  | (p, c) :: rest =>
    if globMatchP p then
      if pySub mid c ≠ c then
        ⟨(p, pySub mid c) :: (rulePass mid rest).fs, (rulePass mid rest).cnt + 1,
          Ev.read p :: Ev.write p :: (rulePass mid rest).evs⟩
      else
        ⟨(p, c) :: (rulePass mid rest).fs, (rulePass mid rest).cnt,
          Ev.read p :: (rulePass mid rest).evs⟩
    else
      ⟨(p, c) :: (rulePass mid rest).fs, (rulePass mid rest).cnt,
        (rulePass mid rest).evs⟩

/-- The summary line of rule 1, `print(f"[1/2] Patched {count1} files ...")`. -/
def report1 (n : Nat) : String :=
  ("[1/2] Patched ") ++ toString n ++ (" files with inlined __exportAll (subagent-registry)")

/-- The summary line of rule 2. -/
def report2 (n : Nat) : String :=
  ("[2/2] Patched ") ++ toString n ++ (" files with inlined __exportAll (reply/in)")

/-- Result of one whole run: final filesystem, the two counters, the ordered
event trace, and the process exit status. -/
structure RunOut where
  fs : List (List String × List Char)
  count1 : Nat
  count2 : Nat
  evs : List Ev
  exitCode : Nat

/-- One whole run of the script: rule 1's loop, its summary line, rule 2's
loop (over the filesystem as left by rule 1), its summary line.  The script
reaches its end without raising or calling an exit function, so the
interpreter exits with status 0. -/
def runScript (fs0 : List (List String × List Char)) : RunOut :=
  ⟨(rulePass RESERVED_PATTERN (rulePass CIRCULAR_PATTERN fs0).fs).fs,
   (rulePass CIRCULAR_PATTERN fs0).cnt,
   (rulePass RESERVED_PATTERN (rulePass CIRCULAR_PATTERN fs0).fs).cnt,
   (rulePass CIRCULAR_PATTERN fs0).evs ++
     Ev.out (report1 (rulePass CIRCULAR_PATTERN fs0).cnt) ::
       ((rulePass RESERVED_PATTERN (rulePass CIRCULAR_PATTERN fs0).fs).evs ++
         [Ev.out (report2
           (rulePass RESERVED_PATTERN (rulePass CIRCULAR_PATTERN fs0).fs).cnt)]),
   0⟩

def Ev.isRW : Ev → Bool
  | .read _ => true
  | .write _ => true
  | .out _ => false

/-- The property claimed of the trace: once any line has been printed, no
further file read or write happens. -/
def summariesLast (evs : List Ev) : Bool :=
  (evs.dropWhile fun e => !e.isOut).all fun e => !e.isRW

/-- Number of `read p` events in a trace. -/
def readsOf (p : List String) : List Ev → Nat
  | [] => 0
  | e :: rest => (if e = Ev.read p then 1 else 0) + readsOf p rest

/-- Number of glob-matched entries with path `p` in the filesystem. -/
def globEntries (p : List String) : List (List String × List Char) → Nat
  | [] => 0
  | (q, _) :: rest =>
    (if q = p ∧ globMatchP q = true then 1 else 0) + globEntries p rest

/-! ## Lemmas about one rule's pass -/

theorem rulePass_fs (mid : List Char) :
    ∀ fs, (rulePass mid fs).fs =
      fs.map fun pc => if globMatchP pc.1 = true then (pc.1, pySub mid pc.2) else pc := by
  intro fs
  induction fs with
  | nil => rfl
  | cons pc rest ih =>
    obtain ⟨p, c⟩ := pc
    by_cases hg : globMatchP p = true
    · by_cases hch : pySub mid c ≠ c
      · simp [rulePass, hg, hch, ih]
      · push_neg at hch
        simp [rulePass, hg, hch, ih]
    · simp [rulePass, hg, ih, Bool.not_eq_true]

theorem rulePass_cnt_zero (mid : List Char) :
    ∀ fs, (∀ pc ∈ fs, globMatchP pc.1 = true → pySub mid pc.2 = pc.2) →
      (rulePass mid fs).cnt = 0 := by
  intro fs
  induction fs with
  | nil => intro _; rfl
  | cons pc rest ih =>
    intro h
    obtain ⟨p, c⟩ := pc
    have hrest := ih (fun x hx => h x (List.mem_cons_of_mem _ hx))
    by_cases hg : globMatchP p = true
    · have hid : pySub mid c = c := h (p, c) (List.mem_cons_self _ _) hg
      simp [rulePass, hg, hid, hrest]
    · simp [rulePass, hg, hrest]

theorem rulePass_noOut (mid : List Char) :
    ∀ fs, ((rulePass mid fs).evs.all fun e => !e.isOut) = true := by
  intro fs
  induction fs with
  | nil => rfl
  | cons pc rest ih =>
    obtain ⟨p, c⟩ := pc
    by_cases hg : globMatchP p = true
    · by_cases hch : pySub mid c ≠ c
      · simpa [rulePass, hg, hch, Ev.isOut] using ih
      · simpa [rulePass, hg, hch, Ev.isOut] using ih
    · simpa [rulePass, hg] using ih

theorem rulePass_globOnly (mid : List Char) :
    ∀ fs, ((rulePass mid fs).evs.all Ev.globOnly) = true := by
  intro fs
  induction fs with
  | nil => rfl
  | cons pc rest ih =>
    obtain ⟨p, c⟩ := pc
    by_cases hg : globMatchP p = true
    · by_cases hch : pySub mid c ≠ c
      · simpa [rulePass, hg, hch, Ev.globOnly] using ih
      · simpa [rulePass, hg, hch, Ev.globOnly] using ih
    · simpa [rulePass, hg] using ih

theorem rulePass_noWrite (mid : List Char) :
    ∀ fs, (∀ pc ∈ fs, globMatchP pc.1 = true → pySub mid pc.2 = pc.2) →
      ((rulePass mid fs).evs.all fun e => !e.isWrite) = true := by
  intro fs
  induction fs with
  | nil => intro _; rfl
  | cons pc rest ih =>
    intro h
    obtain ⟨p, c⟩ := pc
    have hrest := ih (fun x hx => h x (List.mem_cons_of_mem _ hx))
    by_cases hg : globMatchP p = true
    · have hid : pySub mid c = c := h (p, c) (List.mem_cons_self _ _) hg
      simpa [rulePass, hg, hid, Ev.isWrite] using hrest
    · simpa [rulePass, hg] using hrest

theorem rulePass_reads (mid : List Char) (p : List String) :
    ∀ fs, readsOf p (rulePass mid fs).evs = globEntries p fs := by
  intro fs
  induction fs with
  | nil => rfl
  | cons pc rest ih =>
    obtain ⟨q, c⟩ := pc
    by_cases hg : globMatchP q = true
    · by_cases hch : pySub mid c ≠ c
      · by_cases hqp : q = p
        · subst hqp
          simp [rulePass, hg, hch, readsOf, globEntries, ih]
        · simp [rulePass, hg, hch, readsOf, globEntries, hqp, ih,
            fun h : Ev.read q = Ev.read p => hqp (by injection h)]
      · by_cases hqp : q = p
        · subst hqp
          simp [rulePass, hg, hch, readsOf, globEntries, ih]
        · simp [rulePass, hg, hch, readsOf, globEntries, hqp, ih,
            fun h : Ev.read q = Ev.read p => hqp (by injection h)]
    · simp [rulePass, hg, globEntries, ih, fun h : q = p ∧ globMatchP q = true => hg h.2]

theorem rulePass_globEntries (mid : List Char) (p : List String) :
    ∀ fs, globEntries p (rulePass mid fs).fs = globEntries p fs := by
  intro fs
  induction fs with
  | nil => rfl
  | cons pc rest ih =>
    obtain ⟨q, c⟩ := pc
    by_cases hg : globMatchP q = true
    · by_cases hch : pySub mid c ≠ c
      · simp [rulePass, hg, hch, globEntries, ih]
      · simp [rulePass, hg, hch, globEntries, ih]
    · simp [rulePass, hg, globEntries, ih]

theorem readsOf_append (p : List String) :
    ∀ a b, readsOf p (a ++ b) = readsOf p a + readsOf p b := by
  intro a
  induction a with
  | nil => intro b; simp [readsOf]
  | cons e rest ih => intro b; simp [readsOf, ih]; omega

/-- The final filesystem of a run: glob-matched files get both substitutions
applied in order, every other file is untouched. -/
theorem runScript_fs (fs : List (List String × List Char)) :
    (runScript fs).fs =
      fs.map fun pc => if globMatchP pc.1 = true then (pc.1, fileRun pc.2) else pc := by
  show (rulePass RESERVED_PATTERN (rulePass CIRCULAR_PATTERN fs).fs).fs = _
  rw [rulePass_fs, rulePass_fs, List.map_map]
  congr 1
  funext pc
  by_cases h : globMatchP pc.1 = true
  · simp [h, fileRun, Function.comp]
  · simp [h, Function.comp]

/-! ## Scenario contents from the specification -/

/-- The spec's rule-1 scenario import line, newline included. -/
def subLine : List Char :=
  ("import \x7b a as __exportAll \x7d from \"./subagent-registry-ab12.js\";\n").toList

/-- The spec's rule-2 scenario import line (alias is the reserved word `in`). -/
def replyLine : List Char :=
  ("import \x7b in as __exportAll \x7d from \"./reply-xy99.js\";\n").toList

/-- The text of `replyLine` without its leading `import \{ `. -/
def replyTail : List Char :=
  ("in as __exportAll \x7d from \"./reply-xy99.js\";\n").toList

/-- The rule-1 import statement with no trailing newline. -/
def subLineNoNL : List Char :=
  ("import \x7b a as __exportAll \x7d from \"./subagent-registry-ab12.js\";").toList

/-- The text of `subLineNoNL` without its leading `import \{ `. -/
def subNoTail : List Char :=
  ("a as __exportAll \x7d from \"./subagent-registry-ab12.js\";").toList

/-- The rule-2 import statement with no trailing newline. -/
def replyLineNoNL : List Char :=
  ("import \x7b in as __exportAll \x7d from \"./reply-xy99.js\";").toList

/-- The text of `replyLineNoNL` without its leading `import \{ `. -/
def replyNoTail : List Char :=
  ("in as __exportAll \x7d from \"./reply-xy99.js\";").toList

/-- Sample pattern-free trailing code used as a witness content. -/
def cleanEx : List Char :=
  ("console.log(0);\n").toList

/-- Rule 1 matches its scenario line at position 0, consuming exactly the
line, whatever follows. -/
theorem matchHere_subLine (X : List Char) :
    matchHere CIRCULAR_PATTERN (subLine ++ X) = some X :=
  matchB circ_head (['a']) (("ab12.js").toList) X (by decide) (by decide)
    (by decide) (by decide)

/-- Rule 2 matches its scenario line — with the reserved word `in` as the
bound alias — at position 0, consuming exactly the line. -/
theorem matchHere_replyLine (X : List Char) :
    matchHere RESERVED_PATTERN (replyLine ++ X) = some X :=
  matchB res_head (['i', 'n']) (("xy99.js").toList) X (by decide) (by decide)
    (by decide) (by decide)

/-- Generic position-0 failure: if the text after `import \{ ` has a maximal
word run whose stopping point mismatches the rule's middle literal, the rule
cannot match, whatever follows. -/
theorem matchHere_none_concrete {mid u : List Char} (hmid : mid = ' ' :: mid.tail)
    (hstop : (wordRun u).2 ≠ [])
    (hmis : litMismatch mid ((wordRun u).2) = true) :
    ∀ Y, matchHere mid ((importLit ++ u) ++ Y) = none := by
  intro Y
  cases hm : matchHere mid ((importLit ++ u) ++ Y) with
  | none => rfl
  | some t =>
    exfalso
    obtain ⟨w, q, hw, hww, hq, hjs, hs⟩ := matchA hm
    have hs0 : importLit ++ (u ++ Y) =
        importLit ++ (w ++ (mid ++ (q ++ '"' :: ';' :: '\n' :: t))) := by
      rw [← List.append_assoc]
      exact hs
    have hs1 : u ++ Y = w ++ (mid ++ (q ++ '"' :: ';' :: '\n' :: t)) := by
      have := congrArg (List.drop importLit.length) hs0
      rwa [List.drop_left, List.drop_left] at this
    have hL : wordRun (u ++ Y) = ((wordRun u).1, (wordRun u).2 ++ Y) :=
      wordRun_append_of_stop u Y hstop
    have hR : wordRun (w ++ (mid ++ (q ++ '"' :: ';' :: '\n' :: t))) =
        (w, mid ++ (q ++ '"' :: ';' :: '\n' :: t)) := by
      have hsp : mid ++ (q ++ '"' :: ';' :: '\n' :: t) =
          ' ' :: (mid.tail ++ (q ++ '"' :: ';' :: '\n' :: t)) := by
        conv_lhs => rw [hmid]
        rfl
      rw [hsp]
      exact wordRun_exact w hww ' ' _ (by decide)
    have hpair := congrArg wordRun hs1
    rw [hL, hR] at hpair
    have htl := congrArg Prod.snd hpair
    exact litMismatch_ne_append _ _ hmis _ _ htl.symm

/-- Positions strictly inside a concrete line cannot start a match, as
witnessed by the decidable window check on its tail. -/
theorem matchHere_interior_none {mid L : List Char}
    (hchk : allSufTailMis importLit (L.drop 1) = true) :
    ∀ i, 1 ≤ i → i < L.length → ∀ Y, matchHere mid (L.drop i ++ Y) = none := by
  intro i h1 hi Y
  have hd : L.drop i = (L.drop 1).drop (i - 1) := by
    rw [List.drop_drop]
    congr 1
    omega
  rw [hd]
  apply matchHere_none_of_strip
  apply litMismatch_strip
  apply allSufTailMis_spec _ _ hchk (i - 1)
  simp [List.length_drop]
  omega

/-- The rule-1 import statement without a trailing newline does not match:
the pattern requires the `;` to be followed by a newline. -/
theorem matchHere_subNoNL (tailX : List Char) (htl : ∀ t, tailX ≠ '\n' :: t) :
    matchHere CIRCULAR_PATTERN (subLineNoNL ++ tailX) = none := by
  cases hm : matchHere CIRCULAR_PATTERN (subLineNoNL ++ tailX) with
  | none => rfl
  | some t =>
    exfalso
    obtain ⟨w, q, hw, hww, hq, hjs, hs⟩ := matchA hm
    have hs0 : importLit ++ (subNoTail ++ tailX) =
        importLit ++ (w ++ (CIRCULAR_PATTERN ++ (q ++ '"' :: ';' :: '\n' :: t))) := by
      rw [← List.append_assoc]
      exact hs
    have hs1 : subNoTail ++ tailX =
        w ++ (CIRCULAR_PATTERN ++ (q ++ '"' :: ';' :: '\n' :: t)) := by
      have := congrArg (List.drop importLit.length) hs0
      rwa [List.drop_left, List.drop_left] at this
    have hL : wordRun (subNoTail ++ tailX) =
        ((wordRun subNoTail).1, (wordRun subNoTail).2 ++ tailX) :=
      wordRun_append_of_stop subNoTail tailX (by decide)
    have hR : wordRun (w ++ (CIRCULAR_PATTERN ++ (q ++ '"' :: ';' :: '\n' :: t))) =
        (w, CIRCULAR_PATTERN ++ (q ++ '"' :: ';' :: '\n' :: t)) := by
      have hsp : CIRCULAR_PATTERN ++ (q ++ '"' :: ';' :: '\n' :: t) =
          ' ' :: (CIRCULAR_PATTERN.tail ++ (q ++ '"' :: ';' :: '\n' :: t)) := by
        conv_lhs => rw [circ_head]
        rfl
      rw [hsp]
      exact wordRun_exact w hww ' ' _ (by decide)
    have hpair := congrArg wordRun hs1
    rw [hL, hR] at hpair
    have htlq := congrArg Prod.snd hpair
    have hsplit : (wordRun subNoTail).2 =
        CIRCULAR_PATTERN ++ (("ab12.js").toList ++ ['"', ';']) := by decide
    rw [hsplit, List.append_assoc] at htlq
    have hq2 : (("ab12.js").toList ++ ['"', ';']) ++ tailX =
        q ++ '"' :: ';' :: '\n' :: t := List.append_cancel_left htlq
    have hq3 : ("ab12.js").toList ++ ('"' :: ';' :: tailX) =
        q ++ '"' :: ';' :: '\n' :: t := by
      rw [← hq2]
      simp
    have hqL : quoteRun (("ab12.js").toList ++ ('"' :: ';' :: tailX)) =
        (("ab12.js").toList, '"' :: ';' :: tailX) :=
      quoteRun_exact _ (by decide) _
    have hqR : quoteRun (q ++ '"' :: ';' :: '\n' :: t) =
        (q, '"' :: ';' :: '\n' :: t) :=
      quoteRun_exact _ hq _
    have hpair2 := congrArg quoteRun hq3
    rw [hqL, hqR] at hpair2
    have := congrArg Prod.snd hpair2
    simp only [List.cons.injEq] at this
    exact htl t this.2.2

/-- The rule-2 import statement without a trailing newline does not match. -/
theorem matchHere_replyNoNL (tailX : List Char) (htl : ∀ t, tailX ≠ '\n' :: t) :
    matchHere RESERVED_PATTERN (replyLineNoNL ++ tailX) = none := by
  cases hm : matchHere RESERVED_PATTERN (replyLineNoNL ++ tailX) with
  | none => rfl
  | some t =>
    exfalso
    obtain ⟨w, q, hw, hww, hq, hjs, hs⟩ := matchA hm
    have hs0 : importLit ++ (replyNoTail ++ tailX) =
        importLit ++ (w ++ (RESERVED_PATTERN ++ (q ++ '"' :: ';' :: '\n' :: t))) := by
      rw [← List.append_assoc]
      exact hs
    have hs1 : replyNoTail ++ tailX =
        w ++ (RESERVED_PATTERN ++ (q ++ '"' :: ';' :: '\n' :: t)) := by
      have := congrArg (List.drop importLit.length) hs0
      rwa [List.drop_left, List.drop_left] at this
    have hL : wordRun (replyNoTail ++ tailX) =
        ((wordRun replyNoTail).1, (wordRun replyNoTail).2 ++ tailX) :=
      wordRun_append_of_stop replyNoTail tailX (by decide)
    have hR : wordRun (w ++ (RESERVED_PATTERN ++ (q ++ '"' :: ';' :: '\n' :: t))) =
        (w, RESERVED_PATTERN ++ (q ++ '"' :: ';' :: '\n' :: t)) := by
      have hsp : RESERVED_PATTERN ++ (q ++ '"' :: ';' :: '\n' :: t) =
          ' ' :: (RESERVED_PATTERN.tail ++ (q ++ '"' :: ';' :: '\n' :: t)) := by
        conv_lhs => rw [res_head]
        rfl
      rw [hsp]
      exact wordRun_exact w hww ' ' _ (by decide)
    have hpair := congrArg wordRun hs1
    rw [hL, hR] at hpair
    have htlq := congrArg Prod.snd hpair
    have hsplit : (wordRun replyNoTail).2 =
        RESERVED_PATTERN ++ (("xy99.js").toList ++ ['"', ';']) := by decide
    rw [hsplit, List.append_assoc] at htlq
    have hq2 : (("xy99.js").toList ++ ['"', ';']) ++ tailX =
        q ++ '"' :: ';' :: '\n' :: t := List.append_cancel_left htlq
    have hq3 : ("xy99.js").toList ++ ('"' :: ';' :: tailX) =
        q ++ '"' :: ';' :: '\n' :: t := by
      rw [← hq2]
      simp
    have hqL : quoteRun (("xy99.js").toList ++ ('"' :: ';' :: tailX)) =
        (("xy99.js").toList, '"' :: ';' :: tailX) :=
      quoteRun_exact _ (by decide) _
    have hqR : quoteRun (q ++ '"' :: ';' :: '\n' :: t) =
        (q, '"' :: ';' :: '\n' :: t) :=
      quoteRun_exact _ hq _
    have hpair2 := congrArg quoteRun hq3
    rw [hqL, hqR] at hpair2
    have := congrArg Prod.snd hpair2
    simp only [List.cons.injEq] at this
    exact htl t this.2.2

/-! ## Small glue lemmas -/

/-- A one-character content never matches (the patterns are far longer). -/
theorem matchHere_single (mid : List Char) (c : Char) : matchHere mid [c] = none := by
  apply matchHere_none_of_strip
  have hstep : stripLit importLit [c] =
      if c = 'i' then stripLit (("mport \x7b ").toList) [] else none := rfl
  rw [hstep]
  split <;> rfl

theorem cleanB_single (mid : List Char) (c : Char) : cleanB mid [c] = true := by
  simp [cleanB, matchHere_single]

/-- Scanning past a block at whose positions the rule never matches copies
the block and continues. -/
theorem pySub_prepend {mid : List Char} :
    ∀ (u v : List Char),
      (∀ i, i < u.length → matchHere mid (u.drop i ++ v) = none) →
      pySub mid (u ++ v) = u ++ pySub mid v ∧ pyCount mid (u ++ v) = pyCount mid v := by
  intro u
  induction u with
  | nil => intro v _; exact ⟨rfl, rfl⟩
  | cons c u' ih =>
    intro v hu
    have h0 : matchHere mid (c :: (u' ++ v)) = none := hu 0 (by simp)
    have ih' := ih v (fun i hi => by simpa using hu (i + 1) (by simpa using hi))
    constructor
    · show pySub mid (c :: (u' ++ v)) = _
      rw [pySub_nomatch h0, ih'.1]
      rfl
    · show pyCount mid (c :: (u' ++ v)) = _
      rw [pyCount_nomatch h0, ih'.2]

/-- Rule 1 never matches anywhere in the rule-2 scenario line (the chunk
family differs), whatever clean content follows. -/
theorem cleanB_circ_replyLine (rest : List Char)
    (h : cleanB CIRCULAR_PATTERN rest = true) :
    cleanB CIRCULAR_PATTERN (replyLine ++ rest) = true := by
  apply cleanB_prepend _ _ _ h
  intro i hi
  cases Nat.eq_zero_or_pos i with
  | inl h0 =>
    subst h0
    exact matchHere_none_concrete circ_head (u := replyTail) (by decide) (by decide) rest
  | inr h1 => exact matchHere_interior_none (by decide) i h1 hi rest

theorem cleanB_subNoNL_C (tailX : List Char) (htl : ∀ t, tailX ≠ '\n' :: t)
    (hX : cleanB CIRCULAR_PATTERN tailX = true) :
    cleanB CIRCULAR_PATTERN (subLineNoNL ++ tailX) = true := by
  apply cleanB_prepend _ _ _ hX
  intro i hi
  cases Nat.eq_zero_or_pos i with
  | inl h0 =>
    subst h0
    exact matchHere_subNoNL tailX htl
  | inr h1 => exact matchHere_interior_none (by decide) i h1 hi tailX

theorem cleanB_subNoNL_R (tailX : List Char)
    (hX : cleanB RESERVED_PATTERN tailX = true) :
    cleanB RESERVED_PATTERN (subLineNoNL ++ tailX) = true := by
  apply cleanB_prepend _ _ _ hX
  intro i hi
  cases Nat.eq_zero_or_pos i with
  | inl h0 =>
    subst h0
    exact matchHere_none_concrete res_head (u := subNoTail) (by decide) (by decide) tailX
  | inr h1 => exact matchHere_interior_none (by decide) i h1 hi tailX

theorem cleanB_replyNoNL_R (tailX : List Char) (htl : ∀ t, tailX ≠ '\n' :: t)
    (hX : cleanB RESERVED_PATTERN tailX = true) :
    cleanB RESERVED_PATTERN (replyLineNoNL ++ tailX) = true := by
  apply cleanB_prepend _ _ _ hX
  intro i hi
  cases Nat.eq_zero_or_pos i with
  | inl h0 =>
    subst h0
    exact matchHere_replyNoNL tailX htl
  | inr h1 => exact matchHere_interior_none (by decide) i h1 hi tailX

theorem cleanB_replyNoNL_C (tailX : List Char)
    (hX : cleanB CIRCULAR_PATTERN tailX = true) :
    cleanB CIRCULAR_PATTERN (replyLineNoNL ++ tailX) = true := by
  apply cleanB_prepend _ _ _ hX
  intro i hi
  cases Nat.eq_zero_or_pos i with
  | inl h0 =>
    subst h0
    exact matchHere_none_concrete circ_head (u := replyNoTail) (by decide) (by decide) tailX
  | inr h1 => exact matchHere_interior_none (by decide) i h1 hi tailX

/-- Entirely pattern-free content is left untouched by the whole run. -/
theorem fileRun_of_clean {c : List Char}
    (h1 : cleanB CIRCULAR_PATTERN c = true) (h2 : cleanB RESERVED_PATTERN c = true) :
    fileRun c = c := by
  show pySub RESERVED_PATTERN (pySub CIRCULAR_PATTERN c) = c
  rw [pySub_of_cleanB _ h1, pySub_of_cleanB _ h2]

/-- A run over one pattern-free file performs no write at all. -/
theorem runScript_singleton_noWrite (p : List String) {c : List Char}
    (h1 : cleanB CIRCULAR_PATTERN c = true) (h2 : cleanB RESERVED_PATTERN c = true) :
    ((runScript [(p, c)]).evs.all fun e => !e.isWrite) = true := by
  have hid1 : pySub CIRCULAR_PATTERN c = c := pySub_of_cleanB _ h1
  have hid2 : pySub RESERVED_PATTERN c = c := pySub_of_cleanB _ h2
  have hfs1 : (rulePass CIRCULAR_PATTERN [(p, c)]).fs = [(p, c)] := by
    rw [rulePass_fs]
    by_cases hg : globMatchP p = true <;> simp [hg, hid1]
  have hw1 : ((rulePass CIRCULAR_PATTERN [(p, c)]).evs.all fun e => !e.isWrite) = true := by
    apply rulePass_noWrite
    intro pc hpc _
    have : pc = (p, c) := by simpa using hpc
    rw [this]
    exact hid1
  have hw2 :
      ((rulePass RESERVED_PATTERN (rulePass CIRCULAR_PATTERN [(p, c)]).fs).evs.all
        fun e => !e.isWrite) = true := by
    rw [hfs1]
    apply rulePass_noWrite
    intro pc hpc _
    have : pc = (p, c) := by simpa using hpc
    rw [this]
    exact hid2
  show ((rulePass CIRCULAR_PATTERN [(p, c)]).evs ++
      Ev.out _ :: ((rulePass RESERVED_PATTERN (rulePass CIRCULAR_PATTERN [(p, c)]).fs).evs ++
        [Ev.out _])).all (fun e => !e.isWrite) = true
  rw [List.all_append]
  simp only [List.all_cons, List.all_append]
  simp only [Bool.and_eq_true] at *
  refine ⟨hw1, by simp [Ev.isWrite], ?_, by simp [Ev.isWrite]⟩
  simpa using hw2

theorem list_map_id {α : Type _} (f : α → α) :
    ∀ l : List α, (∀ a ∈ l, f a = a) → l.map f = l := by
  intro l
  induction l with
  | nil => intro _; rfl
  | cons a l ih =>
    intro h
    rw [List.map_cons, h a (List.mem_cons_self a l),
      ih (fun b hb => h b (List.mem_cons_of_mem a hb))]

/-- Every glob-processed file of a finished run is clean for both rules. -/
theorem runScript_clean :
    ∀ (fs : List (List String × List Char)) (pc : List String × List Char),
      pc ∈ (runScript fs).fs → globMatchP pc.1 = true →
      cleanB CIRCULAR_PATTERN pc.2 = true ∧ cleanB RESERVED_PATTERN pc.2 = true := by
  intro fs pc hpc hgm
  rw [runScript_fs] at hpc
  obtain ⟨pc0, _, hstep⟩ := List.mem_map.mp hpc
  by_cases hg : globMatchP pc0.1 = true
  · rw [if_pos hg] at hstep
    rw [← hstep]
    exact ⟨fileRun_clean_circ pc0.2, fileRun_clean_res pc0.2⟩
  · rw [if_neg hg] at hstep
    rw [← hstep] at hgm
    exact absurd hgm hg

/-! ## The claims -/

/-- C1: running the patcher twice in succession over the same directory tree
yields, for every file, the same final content as running it once: after one
run no glob-processed file's content contains a substring matching either
rule's import pattern, so a second run performs no substitution and reports
zero modified files for both rules. -/
theorem C1_idempotent (fs : List (List String × List Char)) :
    (runScript (runScript fs).fs).fs = (runScript fs).fs ∧
    (runScript (runScript fs).fs).count1 = 0 ∧
    (runScript (runScript fs).fs).count2 = 0 ∧
    ((runScript fs).fs.all fun pc =>
      !globMatchP pc.1 ||
        (cleanB CIRCULAR_PATTERN pc.2 && cleanB RESERVED_PATTERN pc.2)) = true := by
  have hid1 : ∀ pc ∈ (runScript fs).fs, globMatchP pc.1 = true →
      pySub CIRCULAR_PATTERN pc.2 = pc.2 :=
    fun pc hpc hg => pySub_of_cleanB _ (runScript_clean fs pc hpc hg).1
  have hid2 : ∀ pc ∈ (runScript fs).fs, globMatchP pc.1 = true →
      pySub RESERVED_PATTERN pc.2 = pc.2 :=
    fun pc hpc hg => pySub_of_cleanB _ (runScript_clean fs pc hpc hg).2
  have hfs1 : (rulePass CIRCULAR_PATTERN (runScript fs).fs).fs = (runScript fs).fs := by
    rw [rulePass_fs]
    apply list_map_id
    intro pc hpc
    by_cases hg : globMatchP pc.1 = true
    · rw [if_pos hg, hid1 pc hpc hg]
    · rw [if_neg hg]
  have hcnt1 : (rulePass CIRCULAR_PATTERN (runScript fs).fs).cnt = 0 :=
    rulePass_cnt_zero _ _ hid1
  have hcnt2 :
      (rulePass RESERVED_PATTERN (rulePass CIRCULAR_PATTERN (runScript fs).fs).fs).cnt
        = 0 := by
    rw [hfs1]
    exact rulePass_cnt_zero _ _ hid2
  have hfs2 :
      (rulePass RESERVED_PATTERN (rulePass CIRCULAR_PATTERN (runScript fs).fs).fs).fs
        = (runScript fs).fs := by
    rw [hfs1, rulePass_fs]
    apply list_map_id
    intro pc hpc
    by_cases hg : globMatchP pc.1 = true
    · rw [if_pos hg, hid2 pc hpc hg]
    · rw [if_neg hg]
  refine ⟨hfs2, hcnt1, hcnt2, ?_⟩
  rw [List.all_eq_true]
  intro pc hpc
  cases hg : globMatchP pc.1 with
  | false => simp
  | true =>
    have := runScript_clean fs pc hpc hg
    simp [this.1, this.2]

/-- C3: a file whose content contains no substring matching either rule's
pattern is left byte-for-byte identical by the whole run, and the run
performs no write for a tree holding that file. -/
theorem C3_frame (c : List Char) (h1 : cleanB CIRCULAR_PATTERN c = true)
    (h2 : cleanB RESERVED_PATTERN c = true) :
    fileRun c = c ∧
    ∀ p : List String, ((runScript [(p, c)]).evs.all fun e => !e.isWrite) = true :=
  ⟨fileRun_of_clean h1 h2, fun p => runScript_singleton_noWrite p h1 h2⟩

theorem C3_frame_w :
    fileRun cleanEx = cleanEx ∧
    ∀ p : List String, ((runScript [(p, cleanEx)]).evs.all fun e => !e.isWrite) = true :=
  C3_frame cleanEx (by decide) (by decide)

/-- C5: a file that is the subagent-registry scenario import line followed by
pattern-free code ends up, after the whole run, as the inlined helper block
followed by that code unchanged. -/
theorem C5_scenario (rest : List Char) (h1 : cleanB CIRCULAR_PATTERN rest = true)
    (h2 : cleanB RESERVED_PATTERN rest = true) :
    fileRun (subLine ++ rest) = INLINE ++ rest := by
  show pySub RESERVED_PATTERN (pySub CIRCULAR_PATTERN (subLine ++ rest)) = INLINE ++ rest
  have hstep1 : pySub CIRCULAR_PATTERN (subLine ++ rest) =
      INLINE ++ pySub CIRCULAR_PATTERN rest :=
    pySub_match (matchHere_subLine rest)
  rw [hstep1, pySub_of_cleanB rest h1]
  exact pySub_of_cleanB _ (cleanB_inline_append h2)

theorem C5_scenario_w : fileRun (subLine ++ cleanEx) = INLINE ++ cleanEx :=
  C5_scenario cleanEx (by decide) (by decide)

/-- C6: the reply-chunk rule's pattern matches the reserved-word alias `in`:
a file that is the reply scenario import line followed by pattern-free code
ends up as the same inlined helper block followed by that code unchanged. -/
theorem C6_reserved (rest : List Char) (h1 : cleanB CIRCULAR_PATTERN rest = true)
    (h2 : cleanB RESERVED_PATTERN rest = true) :
    fileRun (replyLine ++ rest) = INLINE ++ rest := by
  show pySub RESERVED_PATTERN (pySub CIRCULAR_PATTERN (replyLine ++ rest))
      = INLINE ++ rest
  rw [pySub_of_cleanB _ (cleanB_circ_replyLine rest h1)]
  have hstep2 : pySub RESERVED_PATTERN (replyLine ++ rest) =
      INLINE ++ pySub RESERVED_PATTERN rest :=
    pySub_match (matchHere_replyLine rest)
  rw [hstep2, pySub_of_cleanB rest h2]

theorem C6_reserved_w : fileRun (replyLine ++ cleanEx) = INLINE ++ cleanEx :=
  C6_reserved cleanEx (by decide) (by decide)

/-- C7: on an empty directory tree the run completes normally, reports 0 for
every rule (printing both summary lines with a `0` count), and exits with
status 0. -/
theorem C7_empty_tree :
    (runScript []).fs = [] ∧ (runScript []).count1 = 0 ∧ (runScript []).count2 = 0 ∧
    (runScript []).exitCode = 0 ∧
    (runScript []).evs = [Ev.out (report1 0), Ev.out (report2 0)] ∧
    report1 0 =
      ("[1/2] Patched 0 files with inlined __exportAll (subagent-registry)") ∧
    report2 0 = ("[2/2] Patched 0 files with inlined __exportAll (reply/in)") := by
  refine ⟨rfl, rfl, rfl, rfl, rfl, ?_, ?_⟩ <;> decide

/-- A one-file tree whose file matches the glob and contains one rule-1
match. -/
def exPath : List String := ["dist", "main.js"]

def exTree : List (List String × List Char) := [(exPath, subLine)]

/-- A path outside the glob (not under `dist`). -/
def outPath : List String := ["src", "x.txt"]

def outTree : List (List String × List Char) := [(outPath, subLine)]

/-- A file that already contains the helper text verbatim, followed by one
rule-1 import: the counterexample input for C2. -/
def c2input : List Char := INLINE ++ subLine

/-- Rule 1 replaces `subLine` (as an entire content) by `INLINE`. -/
theorem pySub_subLine : pySub CIRCULAR_PATTERN subLine = INLINE ∧
    pyCount CIRCULAR_PATTERN subLine = 1 := by
  have hmsub : matchHere CIRCULAR_PATTERN subLine = some [] := by
    have := matchHere_subLine []
    simpa using this
  constructor
  · have := pySub_match hmsub
    simpa [pySub_nil] using this
  · have := pyCount_match hmsub
    simpa [pyCount_nil] using this

/-- C2 counterexample: `c2input` contains exactly one instance of rule 1's
pattern, yet after the whole run its content contains two occurrences of the
inlined helper text, not one: the pre-existing copy of the helper is also
counted. -/
theorem C2_counterexample :
    pyCount CIRCULAR_PATTERN c2input = 1 ∧
    ¬ (countOcc INLINE (fileRun c2input) = 1) := by
  have hpre : ∀ i, i < INLINE.length →
      matchHere CIRCULAR_PATTERN (INLINE.drop i ++ subLine) = none :=
    fun i hi => matchHere_inline_none _ i hi subLine
  have hp := pySub_prepend INLINE subLine hpre
  have hcleanII : cleanB RESERVED_PATTERN (INLINE ++ INLINE) = true := by
    apply cleanB_inline_append
    have : cleanB RESERVED_PATTERN (INLINE ++ ([] : List Char)) = true :=
      cleanB_inline_append rfl
    simpa using this
  have hfr : fileRun c2input = INLINE ++ INLINE := by
    show pySub RESERVED_PATTERN (pySub CIRCULAR_PATTERN (INLINE ++ subLine))
        = INLINE ++ INLINE
    rw [hp.1, pySub_subLine.1]
    exact pySub_of_cleanB _ hcleanII
  have hocc2 : countOcc INLINE (INLINE ++ INLINE) = 2 := by
    rw [countOcc_INLINE_prepend]
    have h1 : countOcc INLINE (INLINE ++ ([] : List Char)) = 1 + countOcc INLINE [] :=
      countOcc_INLINE_prepend []
    simp only [List.append_nil] at h1
    rw [h1]
    rfl
  constructor
  · show pyCount CIRCULAR_PATTERN (INLINE ++ subLine) = 1
    rw [hp.2, pySub_subLine.2]
  · rw [hfr, hocc2]
    omega

/-- C2 amended: for a file containing exactly one scan instance of one rule's
pattern, no instance of the other rule's pattern, and no pre-existing
occurrence of the helper text, the run leaves zero instances of the pattern
and exactly one occurrence of the inlined helper text. -/
theorem C2_amended (s : List Char) :
    (pyCount CIRCULAR_PATTERN s = 1 → pyCount RESERVED_PATTERN s = 0 →
      countOcc INLINE s = 0 →
      pyCount CIRCULAR_PATTERN (fileRun s) = 0 ∧
        countOcc INLINE (fileRun s) = 1) ∧
    (pyCount RESERVED_PATTERN s = 1 → pyCount CIRCULAR_PATTERN s = 0 →
      countOcc INLINE s = 0 →
      pyCount RESERVED_PATTERN (fileRun s) = 0 ∧
        countOcc INLINE (fileRun s) = 1) := by
  constructor
  · intro h1 h2 h0
    have hres : cleanB RESERVED_PATTERN s = true :=
      cleanB_of_pyCount s.length s (le_refl _) h2
    have hres1 : cleanB RESERVED_PATTERN (pySub CIRCULAR_PATTERN s) = true :=
      cleanB_pySub_pres res_head res_mis_INLINE res_mis_wordRest CIRCULAR_PATTERN
        s.length s (le_refl _) hres
    have hfr : fileRun s = pySub CIRCULAR_PATTERN s := pySub_of_cleanB _ hres1
    constructor
    · rw [hfr]
      exact pyCount_of_cleanB _ (circ_clean_after s)
    · rw [hfr, countOcc_pySub CIRCULAR_PATTERN s.length s (le_refl _) h0, h1]
  · intro h1 h2 h0
    have hcirc : cleanB CIRCULAR_PATTERN s = true :=
      cleanB_of_pyCount s.length s (le_refl _) h2
    have hfr : fileRun s = pySub RESERVED_PATTERN s := by
      show pySub RESERVED_PATTERN (pySub CIRCULAR_PATTERN s) = _
      rw [pySub_of_cleanB _ hcirc]
    constructor
    · rw [hfr]
      exact pyCount_of_cleanB _ (res_clean_after s)
    · rw [hfr, countOcc_pySub RESERVED_PATTERN s.length s (le_refl _) h0, h1]

theorem C2_amended_w :
    (pyCount CIRCULAR_PATTERN (fileRun subLine) = 0 ∧
      countOcc INLINE (fileRun subLine) = 1) ∧
    (pyCount RESERVED_PATTERN (fileRun replyLine) = 0 ∧
      countOcc INLINE (fileRun replyLine) = 1) :=
  ⟨(C2_amended subLine).1 (by decide) (by decide) (by decide),
   (C2_amended replyLine).2 (by decide) (by decide) (by decide)⟩

/-- C4 counterexample: on a one-file tree the run reads the file's content
twice (once in each rule's loop), not once. -/
theorem C4_counterexample : ¬ (readsOf exPath (runScript exTree).evs = 1) := by
  decide

/-- C4 amended: during one run, every glob-matched file is read exactly once
per rule loop, hence exactly twice in total. -/
theorem C4_reads (p : List String) (fs : List (List String × List Char)) :
    readsOf p (runScript fs).evs = 2 * globEntries p fs := by
  show readsOf p ((rulePass CIRCULAR_PATTERN fs).evs ++
      Ev.out (report1 (rulePass CIRCULAR_PATTERN fs).cnt) ::
        ((rulePass RESERVED_PATTERN (rulePass CIRCULAR_PATTERN fs).fs).evs ++
          [Ev.out (report2
            (rulePass RESERVED_PATTERN (rulePass CIRCULAR_PATTERN fs).fs).cnt)]))
      = 2 * globEntries p fs
  rw [readsOf_append]
  have hout : ∀ (s : String) (rest : List Ev),
      readsOf p (Ev.out s :: rest) = readsOf p rest := by
    intro s rest
    simp [readsOf]
  rw [hout, readsOf_append, hout]
  show readsOf p (rulePass CIRCULAR_PATTERN fs).evs +
      (readsOf p (rulePass RESERVED_PATTERN (rulePass CIRCULAR_PATTERN fs).fs).evs +
        readsOf p []) = 2 * globEntries p fs
  rw [rulePass_reads, rulePass_reads, rulePass_globEntries]
  show globEntries p fs + (globEntries p fs + 0) = 2 * globEntries p fs
  omega

/-- C8 counterexample: with one matched file, the rule-1 summary line is
printed before rule 2's reads of that file, so a summary line does appear
before all file processing of the run has completed. -/
theorem C8_counterexample : summariesLast (runScript exTree).evs = false := by
  decide

/-- C8 amended: the trace is exactly rule 1's file events, then rule 1's
summary line, then rule 2's file events, then rule 2's summary line; within
each rule's loop no line is printed, so each rule's summary follows all of
that rule's reads and writes (but the rule-1 summary precedes rule 2's
processing). -/
theorem C8_order (fs : List (List String × List Char)) :
    (runScript fs).evs =
      (rulePass CIRCULAR_PATTERN fs).evs ++
        Ev.out (report1 (runScript fs).count1) ::
          ((rulePass RESERVED_PATTERN (rulePass CIRCULAR_PATTERN fs).fs).evs ++
            [Ev.out (report2 (runScript fs).count2)]) ∧
    ((rulePass CIRCULAR_PATTERN fs).evs.all fun e => !e.isOut) = true ∧
    ((rulePass RESERVED_PATTERN (rulePass CIRCULAR_PATTERN fs).fs).evs.all
      fun e => !e.isOut) = true :=
  ⟨rfl, rulePass_noOut _ _, rulePass_noOut _ _⟩

/-- C9: the run reads or writes only paths matched by the glob
`dist/**/*.js`; all its other output is standard out; every file outside the
glob keeps its exact content and entry in the final filesystem. -/
theorem C9_glob_frame (fs : List (List String × List Char)) :
    ((runScript fs).evs.all Ev.globOnly) = true ∧
    (runScript fs).fs =
      fs.map (fun pc =>
        if globMatchP pc.1 = true then (pc.1, fileRun pc.2) else pc) ∧
    ∀ p c, (p, c) ∈ fs → globMatchP p = false → (p, c) ∈ (runScript fs).fs := by
  refine ⟨?_, runScript_fs fs, ?_⟩
  · show (((rulePass CIRCULAR_PATTERN fs).evs ++
        Ev.out (report1 (rulePass CIRCULAR_PATTERN fs).cnt) ::
          ((rulePass RESERVED_PATTERN (rulePass CIRCULAR_PATTERN fs).fs).evs ++
            [Ev.out (report2
              (rulePass RESERVED_PATTERN (rulePass CIRCULAR_PATTERN fs).fs).cnt)])).all
        Ev.globOnly) = true
    rw [List.all_append]
    simp only [List.all_cons, List.all_append]
    simp [rulePass_globOnly, Ev.globOnly]
  · intro p c hmem hg
    rw [runScript_fs]
    have h2 := List.mem_map_of_mem
      (f := fun pc : List String × List Char =>
        if globMatchP pc.1 = true then (pc.1, fileRun pc.2) else pc) hmem
    simpa [hg] using h2

theorem C9_glob_frame_w : (outPath, subLine) ∈ (runScript outTree).fs :=
  (C9_glob_frame outTree).2.2 outPath subLine (by decide) (by decide)

/-- C10: an import statement of either rule that is not followed by a newline
character — at the end of the file, or followed by any other character — is
not matched: the content is left byte-for-byte unchanged and never written,
because both patterns require the terminating `;` to be followed by `\n`. -/
theorem C10_requires_newline :
    fileRun subLineNoNL = subLineNoNL ∧ fileRun replyLineNoNL = replyLineNoNL ∧
    (∀ c : Char, ¬ c = '\n' →
      fileRun (subLineNoNL ++ [c]) = subLineNoNL ++ [c] ∧
      fileRun (replyLineNoNL ++ [c]) = replyLineNoNL ++ [c]) ∧
    (∀ p : List String,
      ((runScript [(p, subLineNoNL)]).evs.all fun e => !e.isWrite) = true ∧
      ((runScript [(p, replyLineNoNL)]).evs.all fun e => !e.isWrite) = true) := by
  have hsC : cleanB CIRCULAR_PATTERN subLineNoNL = true := by decide
  have hsR : cleanB RESERVED_PATTERN subLineNoNL = true := by decide
  have hrC : cleanB CIRCULAR_PATTERN replyLineNoNL = true := by decide
  have hrR : cleanB RESERVED_PATTERN replyLineNoNL = true := by decide
  refine ⟨fileRun_of_clean hsC hsR, fileRun_of_clean hrC hrR, ?_, ?_⟩
  · intro c hc
    have htl : ∀ t, ([c] : List Char) ≠ '\n' :: t := by
      intro t h
      simp only [List.cons.injEq] at h
      exact hc h.1
    refine ⟨fileRun_of_clean ?_ ?_, fileRun_of_clean ?_ ?_⟩
    · exact cleanB_subNoNL_C [c] htl (cleanB_single _ c)
    · exact cleanB_subNoNL_R [c] (cleanB_single _ c)
    · exact cleanB_replyNoNL_C [c] (cleanB_single _ c)
    · exact cleanB_replyNoNL_R [c] htl (cleanB_single _ c)
  · intro p
    exact ⟨runScript_singleton_noWrite p hsC hsR, runScript_singleton_noWrite p hrC hrR⟩

theorem C10_requires_newline_w :
    fileRun (subLineNoNL ++ ['x']) = subLineNoNL ++ ['x'] ∧
    fileRun (replyLineNoNL ++ ['x']) = replyLineNoNL ++ ['x'] :=
  (C10_requires_newline.2.2.1) 'x' (by decide)

end FixCircularDeps
